import Mathlib

/-!
Verification of the consistent-hash ring (`ConsistentHash`, consistent_hash.cpp)
and the sharded key-value store (`KeyValueStore`, kv_store.cpp).

Strings (`std::string`) are modelled as lists of byte values (`List Nat`).
`std::map` is modelled as an association list sorted strictly ascending on its
key; since map keys are unique, `erase(key)` is modelled by filtering that key
out.  Machine arithmetic on `uint32_t` is modelled by `Nat` with explicit
reduction modulo `2 ^ 32`.  Functions of the source that `throw` on bad
arguments (empty node name, non-positive replica count) are embedded as their
post-guard bodies; the guards reappear as side conditions on the reachability
relations, since a throwing call never produces a state.
-/

namespace SDI

/-- A byte string (`std::string`): the list of its byte values. -/
abbrev Str := List Nat

/-- `2 ^ 32`, the modulus of `uint32_t` arithmetic. -/
def U32 : Nat := 2 ^ 32

/-- FNV-1a 32-bit hash, `ConsistentHash::hash`:
`hash ^= byte; hash *= FNV_PRIME` on `uint32_t`. -/
def fnv (s : Str) : Nat :=
  s.foldl (fun h c => ((h ^^^ (c % 256)) * 16777619) % U32) 2166136261

/-- Decimal digit characters of `n` as bytes (what `operator<<` prints). -/
def decimalBytes (n : Nat) : List Nat := (Nat.toDigits 10 n).map Char.toNat

/-- `ConsistentHash::getVirtualNodeName`: `nodeName << "#" << replicaIndex`
(`'#'` is byte 35). -/
def virtualLabel (name : Str) (i : Nat) : Str := name ++ (35 :: decimalBytes i)

/-- `ring_.find(h) != ring_.end()`: is position `h` occupied in the ring? -/
def ringMem (h : Nat) (l : List (Nat × Str)) : Bool := l.any (fun e => e.1 == h)

/-- `ring_[p] = v` on the sorted-by-position representation of
`std::map<uint32_t, std::string>`. -/
def ringInsert (p : Nat) (v : Str) : List (Nat × Str) → List (Nat × Str)
  | [] => [(p, v)]
  | e :: rest =>
    if p < e.1 then (p, v) :: e :: rest
    else if p = e.1 then (p, v) :: rest
    else e :: ringInsert p v rest

/-- `ring_.erase(p)`: a `std::map` holds at most one entry per key, so erasing
the key is filtering it out. -/
def ringErase (p : Nat) (l : List (Nat × Str)) : List (Nat × Str) :=
  l.filter (fun e => !(e.1 == p))

/-- The collision loop of `ConsistentHash::addNode`:
`while (ring_.find(hashValue) != ring_.end()) hashValue++;` on `uint32_t`.
The walk visits pairwise distinct positions, so when `l.length < 2 ^ 32` a free
slot is reached within `l.length + 1` probes; the fuel makes that explicit. -/
def probeAux : Nat → List (Nat × Str) → Nat → Nat
  | 0, _, h => h
  | fuel + 1, l, h => if ringMem h l then probeAux fuel l ((h + 1) % U32) else h

/-- The position `ConsistentHash::addNode` assigns to one virtual-node label:
hash it, then resolve collisions by upward linear probing. -/
def placeVirtual (l : List (Nat × Str)) (label : Str) : Nat :=
  probeAux (l.length + 1) l (fnv label)

/-- Lexicographic byte comparison, `operator<` of `std::string`. -/
def strLt : Str → Str → Bool
  | _, [] => false
  | [], _ :: _ => true
  | a :: as, b :: bs => if a < b then true else if b < a then false else strLt as bs

/-- `m[name] = v` on the sorted-by-key representation of `std::map<std::string, α>`. -/
def mapInsert {α : Type} (name : Str) (v : α) : List (Str × α) → List (Str × α)
  | [] => [(name, v)]
  | e :: rest =>
    if strLt name e.1 then (name, v) :: e :: rest
    else if name = e.1 then (name, v) :: rest
    else e :: mapInsert name v rest

/-- `m.find(name)` on a `std::map<std::string, α>` (unique keys). -/
def mapFind? {α : Type} (name : Str) (m : List (Str × α)) : Option α :=
  (m.find? (fun e => e.1 == name)).map (·.2)

/-- `m.erase(name)`: unique keys, so erasing the key is filtering it out. -/
def mapErase {α : Type} (name : Str) (m : List (Str × α)) : List (Str × α) :=
  m.filter (fun e => !(e.1 == name))

/-- State of `ConsistentHash`: the replica count, the position-sorted ring
`std::map<uint32_t, std::string>`, and the name-sorted side index
`std::map<std::string, std::vector<uint32_t>>`. -/
structure ConsistentHash where
  virtualNodesPerNode : Nat
  ring : List (Nat × Str)
  nodeToHashes : List (Str × List Nat)
deriving DecidableEq

/-- The constructor `ConsistentHash(int)`; it throws unless `0 < r`. -/
def mkCH (r : Nat) : ConsistentHash := ⟨r, [], []⟩

/-- The loop of `ConsistentHash::addNode` over replica indices `i, i+1, ...`:
threads the growing ring and the accumulated position vector `hashes`. -/
def addVirtualsFrom (name : Str) : Nat → Nat → List (Nat × Str) × List Nat →
    List (Nat × Str) × List Nat
  | _, 0, acc => acc
  | i, n + 1, acc =>
    let p := placeVirtual acc.1 (virtualLabel name i)
    addVirtualsFrom name (i + 1) n (ringInsert p name acc.1, acc.2 ++ [p])

/-- `ConsistentHash::addNode` (post empty-name guard, which throws):
no-op when the node is present, otherwise insert `virtualNodesPerNode` virtual
positions and record them in the side index. -/
def ConsistentHash.addNode (name : Str) (ch : ConsistentHash) : ConsistentHash :=
  if (mapFind? name ch.nodeToHashes).isSome then ch
  else
    let res := addVirtualsFrom name 0 ch.virtualNodesPerNode (ch.ring, [])
    { ch with ring := res.1, nodeToHashes := mapInsert name res.2 ch.nodeToHashes }

/-- `ConsistentHash::removeNode`: erase every recorded position from the ring,
then drop the node from the side index. -/
def ConsistentHash.removeNode (name : Str) (ch : ConsistentHash) :
    Bool × ConsistentHash :=
  match mapFind? name ch.nodeToHashes with
  | none => (false, ch)
  | some hs =>
    (true, { ch with ring := hs.foldl (fun r p => ringErase p r) ch.ring,
                     nodeToHashes := mapErase name ch.nodeToHashes })

/-- `ConsistentHash::getNode`: `lower_bound(hash key)`, wrapping to `begin()`
when past the last position; empty string on an empty ring. -/
def ConsistentHash.getNode (ch : ConsistentHash) (key : Str) : Str :=
  match ch.ring with
  | [] => []
  | e0 :: _ =>
    match ch.ring.find? (fun e => decide (fnv key ≤ e.1)) with
    | some e => e.2
    | none => e0.2

/-- The collection loop of `ConsistentHash::getNodes`: scan the rotated ring,
skipping already-seen names, until `count` distinct names are collected. -/
def collectNodes (count : Nat) : List (Nat × Str) → List Str → List Str
  | [], acc => acc
  | e :: rest, acc =>
    if count ≤ acc.length then acc
    else if acc.contains e.2 then collectNodes count rest acc
    else collectNodes count rest (acc ++ [e.2])

/-- `ConsistentHash::getNodes`: walk clockwise from `lower_bound(hash key)`
collecting distinct node names (`count <= 0` and the empty ring give `[]`). -/
def ConsistentHash.getNodes (ch : ConsistentHash) (key : Str) (count : Nat) :
    List Str :=
  if ch.ring.isEmpty || count == 0 then []
  else
    let i := ch.ring.findIdx (fun e => decide (fnv key ≤ e.1))
    let s := if i < ch.ring.length then i else 0
    collectNodes count (ch.ring.drop s ++ ch.ring.take s) []

/-- `ConsistentHash::getNodeCount`. -/
def ConsistentHash.getNodeCount (ch : ConsistentHash) : Nat := ch.nodeToHashes.length

/-- `ConsistentHash::getVirtualNodeCount`. -/
def ConsistentHash.getVirtualNodeCount (ch : ConsistentHash) : Nat := ch.ring.length

/-- `ConsistentHash::hasNode`. -/
def ConsistentHash.hasNode (ch : ConsistentHash) (name : Str) : Bool :=
  (mapFind? name ch.nodeToHashes).isSome

/-- `ConsistentHash::getAllNodes`. -/
def ConsistentHash.getAllNodes (ch : ConsistentHash) : List Str :=
  ch.nodeToHashes.map (·.1)

/-- `ConsistentHash::clear`. -/
def ConsistentHash.clear (ch : ConsistentHash) : ConsistentHash :=
  { ch with ring := [], nodeToHashes := [] }

/-- State of `KeyValueStore`: its owned ring, the `data_` map and the
`serverKeys_` map (each server's `std::vector` of tracked keys). -/
structure KeyValueStore where
  hashRing : ConsistentHash
  data : List (Str × Str)
  serverKeys : List (Str × List Str)
deriving DecidableEq

/-- The constructor `KeyValueStore(int)`; its ring throws unless `0 < r`. -/
def mkKV (r : Nat) : KeyValueStore := ⟨mkCH r, [], []⟩

/-- `KeyValueStore::addServer` (post empty-id guard, which throws). -/
def KeyValueStore.addServer (sid : Str) (st : KeyValueStore) :
    Bool × KeyValueStore :=
  if (mapFind? sid st.serverKeys).isSome then (false, st)
  else
    (true, { st with hashRing := st.hashRing.addNode sid,
                     serverKeys := mapInsert sid [] st.serverKeys })

/-- `KeyValueStore::updateServerKeys`: append `key` to `sid`'s vector unless it
is already there; no effect when `sid` is not tracked. -/
def updateServerKeys (key sid : Str) : List (Str × List Str) →
    List (Str × List Str)
  | [] => []
  | e :: rest =>
    if e.1 = sid then (e.1, if key ∈ e.2 then e.2 else e.2 ++ [key]) :: rest
    else e :: updateServerKeys key sid rest

/-- `KeyValueStore::removeFromServerKeys`: `std::remove`/`erase` deletes every
occurrence of `key` from `sid`'s vector. -/
def removeFromServerKeys (key sid : Str) : List (Str × List Str) →
    List (Str × List Str)
  | [] => []
  | e :: rest =>
    if e.1 = sid then (e.1, e.2.filter (fun k => !(k == key))) :: rest
    else e :: removeFromServerKeys key sid rest

/-- The old-owner scan of `KeyValueStore::set`: walk `serverKeys_` in map
order, erase the first found occurrence of `key`, and stop. -/
def eraseFirstOwner (key : Str) : List (Str × List Str) → List (Str × List Str)
  | [] => []
  | e :: rest =>
    if e.2.contains key then (e.1, e.2.erase key) :: rest
    else e :: eraseFirstOwner key rest

/-- The loop body of `KeyValueStore::removeServer`: if the key is still
stored, re-route it on the shrunken ring and, if a target exists, move its
tracking entry there. -/
def reassignStep (data : List (Str × Str)) (ring2 : ConsistentHash)
    (acc : List (Str × List Str)) (key : Str) : List (Str × List Str) :=
  if (mapFind? key data).isSome then
    let ns := ring2.getNode key
    if ns.isEmpty then acc else updateServerKeys key ns acc
  else acc

/-- `KeyValueStore::removeServer`: drop the server from ring and tracking, then
re-route every key it tracked, moving surviving keys to their new owner. -/
def KeyValueStore.removeServer (sid : Str) (st : KeyValueStore) :
    Bool × KeyValueStore :=
  match mapFind? sid st.serverKeys with
  | none => (false, st)
  | some ks =>
    let ring2 := (st.hashRing.removeNode sid).2
    let sk3 := ks.foldl (reassignStep st.data ring2) (mapErase sid st.serverKeys)
    (true, { st with hashRing := ring2, serverKeys := sk3 })

/-- `KeyValueStore::set`. -/
def KeyValueStore.set (key value : Str) (st : KeyValueStore) :
    Bool × KeyValueStore :=
  if key.isEmpty then (false, st)
  else if st.hashRing.getNodeCount == 0 then (false, st)
  else
    let sid := st.hashRing.getNode key
    if sid.isEmpty then (false, st)
    else
      let sk1 := if (mapFind? key st.data).isSome then eraseFirstOwner key st.serverKeys
                 else st.serverKeys
      (true, { st with data := mapInsert key value st.data,
                       serverKeys := updateServerKeys key sid sk1 })

/-- `KeyValueStore::get`. -/
def KeyValueStore.get (st : KeyValueStore) (key : Str) : Str :=
  (mapFind? key st.data).getD []

/-- `KeyValueStore::remove`. -/
def KeyValueStore.remove (key : Str) (st : KeyValueStore) :
    Bool × KeyValueStore :=
  if (mapFind? key st.data).isSome then
    let sid := st.hashRing.getNode key
    let sk := if sid.isEmpty then st.serverKeys
              else removeFromServerKeys key sid st.serverKeys
    (true, { st with data := mapErase key st.data, serverKeys := sk })
  else (false, st)

/-- `KeyValueStore::exists`. -/
def KeyValueStore.existsKey (st : KeyValueStore) (key : Str) : Bool :=
  (mapFind? key st.data).isSome

/-- `KeyValueStore::getKeysForServer`. -/
def KeyValueStore.getKeysForServer (st : KeyValueStore) (sid : Str) : List Str :=
  (mapFind? sid st.serverKeys).getD []

/-- `KeyValueStore::getServers`. -/
def KeyValueStore.getServers (st : KeyValueStore) : List Str :=
  st.serverKeys.map (·.1)

/-- `KeyValueStore::getServerForKey`. -/
def KeyValueStore.getServerForKey (st : KeyValueStore) (key : Str) : Str :=
  st.hashRing.getNode key

/-- `KeyValueStore::clear`. -/
def KeyValueStore.clear (st : KeyValueStore) : KeyValueStore :=
  ⟨st.hashRing.clear, [], []⟩

/-- `KeyValueStore::getServerCount`. -/
def KeyValueStore.getServerCount (st : KeyValueStore) : Nat :=
  st.hashRing.getNodeCount

/-- `KeyValueStore::getTotalEntries`. -/
def KeyValueStore.getTotalEntries (st : KeyValueStore) : Nat := st.data.length

/-! ### Specification-side definitions -/

/-- The representation invariant of `std::map<uint32_t, std::string>`:
strictly ascending positions. -/
abbrev RingSorted (l : List (Nat × Str)) : Prop :=
  List.Pairwise (fun a b => a.1 < b.1) l

/-- The representation invariant of a `std::map<std::string, α>`:
strictly ascending keys. -/
abbrev SortedKeys {α : Type} (m : List (Str × α)) : Prop :=
  List.Pairwise (fun a b => strLt a.1 b.1 = true) m

/-- `p` is the first position that is free in `l` when probing upward by one
from `h`, wrapping at `2 ^ 32`. -/
def FirstFree (l : List (Nat × Str)) (h p : Nat) : Prop :=
  ∃ k, p = (h + k) % U32 ∧ ringMem p l = false ∧
    ∀ j < k, ringMem ((h + j) % U32) l = true

/-- The ring entry `getNode` resolves hash `h` to: the first entry with
position `≥ h`, else the first entry of the ring; `none` only on `[]`. -/
def routeEntry (l : List (Nat × Str)) (h : Nat) : Option (Nat × Str) :=
  match l.find? (fun e => decide (h ≤ e.1)) with
  | some e => some e
  | none => l.head?

/-- The index at which the clockwise walk of `getNodes` starts: the
`lower_bound` position, or `begin()` when the search hit `end()`. -/
def rotStart (l : List (Nat × Str)) (h : Nat) : Nat :=
  if l.findIdx (fun e => decide (h ≤ e.1)) < l.length
  then l.findIdx (fun e => decide (h ≤ e.1)) else 0

/-- The internal invariant of a `ConsistentHash` state: positive replica
count, strictly sorted ring, strictly sorted side index, the ring holding
`virtualNodesPerNode` entries per physical node, every recorded position
present in the ring under its node, and every ring entry recorded in the
side index under its owner. -/
structure InvCH (ch : ConsistentHash) : Prop where
  posReplicas : 0 < ch.virtualNodesPerNode
  ringSorted : RingSorted ch.ring
  keysSorted : SortedKeys ch.nodeToHashes
  count : ch.ring.length = ch.virtualNodesPerNode * ch.nodeToHashes.length
  nodes : ∀ e ∈ ch.nodeToHashes, e.1 ≠ [] ∧ e.2.length = ch.virtualNodesPerNode ∧
    e.2.Nodup ∧ ∀ p ∈ e.2, (p, e.1) ∈ ch.ring
  cover : ∀ e ∈ ch.ring, ∃ hs, (e.2, hs) ∈ ch.nodeToHashes ∧ e.1 ∈ hs

/-- The `ConsistentHash` states reachable by completed public calls.  The
constructor guard (`0 < r`) and the `addNode` empty-name guard are the
source's `throw`s; the length bound says the collision loops of the call
terminate (a full `uint32` ring would spin forever and never return). -/
inductive ReachableCH : ConsistentHash → Prop where
  | init (r : Nat) (hr : 0 < r) : ReachableCH (mkCH r)
  | add {ch : ConsistentHash} (name : Str) (h : ReachableCH ch) (hn : name ≠ [])
      (hlen : ch.ring.length + ch.virtualNodesPerNode ≤ U32) :
      ReachableCH (ConsistentHash.addNode name ch)
  | remove {ch : ConsistentHash} (name : Str) (h : ReachableCH ch) :
      ReachableCH (ConsistentHash.removeNode name ch).2
  | clearStep {ch : ConsistentHash} (h : ReachableCH ch) :
      ReachableCH (ConsistentHash.clear ch)

/-- The internal invariant of a `KeyValueStore` state reachable while every
`addServer` happens on an empty `data` map: the ring invariant, sorted maps,
the server set mirroring the ring's node set, every tracked key present in
`data` and routed to its tracking server, and (on a non-empty ring) every
stored key tracked under the server it routes to. -/
structure StoreInv (st : KeyValueStore) : Prop where
  ringInv : InvCH st.hashRing
  dataSorted : SortedKeys st.data
  skSorted : SortedKeys st.serverKeys
  keysEq : st.serverKeys.map (·.1) = st.hashRing.nodeToHashes.map (·.1)
  tracked : ∀ e ∈ st.serverKeys, e.2.Nodup ∧
    ∀ k ∈ e.2, (∃ v, (k, v) ∈ st.data) ∧
      ConsistentHash.getNode st.hashRing k = e.1
  owned : st.hashRing.ring ≠ [] → ∀ kv ∈ st.data, ∃ ks,
    (ConsistentHash.getNode st.hashRing kv.1, ks) ∈ st.serverKeys ∧ kv.1 ∈ ks

/-- The part of `StoreInv` threaded through `removeServer`'s reassignment
loop: sorted tracking keyed exactly by the shrunken ring's nodes, every
tracked key stored and routed (on the shrunken ring) to its tracker. -/
def ReassignInv (data : List (Str × Str)) (ring2 : ConsistentHash)
    (m : List (Str × List Str)) : Prop :=
  SortedKeys m ∧
  m.map (·.1) = ring2.nodeToHashes.map (·.1) ∧
  ∀ e ∈ m, e.2.Nodup ∧ ∀ k ∈ e.2, (∃ v, (k, v) ∈ data) ∧
    ConsistentHash.getNode ring2 k = e.1

/-- The `KeyValueStore` states reachable by completed public calls under the
restriction that `addServer` is only called while `data` is empty.  The guards
mirror the source's `throw`s and loop termination as in `ReachableCH`. -/
inductive ReachableKVE : KeyValueStore → Prop where
  | init (r : Nat) (hr : 0 < r) : ReachableKVE (mkKV r)
  | addServerStep {st : KeyValueStore} (sid : Str) (h : ReachableKVE st)
      (hn : sid ≠ [])
      (hlen : st.hashRing.ring.length + st.hashRing.virtualNodesPerNode ≤ U32)
      (hdata : st.data = []) :
      ReachableKVE (KeyValueStore.addServer sid st).2
  | removeServerStep {st : KeyValueStore} (sid : Str) (h : ReachableKVE st) :
      ReachableKVE (KeyValueStore.removeServer sid st).2
  | setStep {st : KeyValueStore} (key value : Str) (h : ReachableKVE st) :
      ReachableKVE (KeyValueStore.set key value st).2
  | removeStep {st : KeyValueStore} (key : Str) (h : ReachableKVE st) :
      ReachableKVE (KeyValueStore.remove key st).2
  | clearStep {st : KeyValueStore} (h : ReachableKVE st) :
      ReachableKVE (KeyValueStore.clear st)

/-- Concrete run (one replica per node): register server `"a"`, store key
`"p"`, then register server `"b"` — whose virtual position intercepts the
route of `"p"`. -/
def exC2 : KeyValueStore :=
  (KeyValueStore.addServer [98]
    (KeyValueStore.set [112] [118]
      (KeyValueStore.addServer [97] (mkKV 1)).2).2).2

/-- Continuation of `exC2`: delete `"p"` (the code removes it from the list
of the server it now routes to, `"b"`, leaving a stale record under `"a"`),
then store `"p"` again. -/
def exC3 : KeyValueStore :=
  (KeyValueStore.set [112] [118]
    (KeyValueStore.remove [112] exC2).2).2

/-! ### Ring order and basic facts about `ringInsert`, `ringMem`, `probeAux` -/

theorem ringMem_iff (p : Nat) (l : List (Nat × Str)) :
    ringMem p l = true ↔ p ∈ l.map (·.1) := by
  simp [ringMem, List.any_eq_true, List.mem_map, beq_iff_eq]

theorem ringMem_cons (p : Nat) (e : Nat × Str) (l : List (Nat × Str)) :
    ringMem p (e :: l) = ((e.1 == p) || ringMem p l) := by
  simp [ringMem]

theorem mem_ringInsert {a : Nat × Str} (p : Nat) (v : Str) :
    ∀ l : List (Nat × Str), a ∈ ringInsert p v l → a = (p, v) ∨ a ∈ l := by
  intro l
  induction l with
  | nil =>
    intro h
    simp only [ringInsert, List.mem_singleton] at h
    exact Or.inl h
  | cons e rest ih =>
    intro h
    by_cases h1 : p < e.1
    · simp only [ringInsert, if_pos h1] at h
      rcases List.mem_cons.mp h with h | h
      · exact Or.inl h
      · exact Or.inr h
    · by_cases h2 : p = e.1
      · simp only [ringInsert, if_neg h1, if_pos h2] at h
        rcases List.mem_cons.mp h with h | h
        · exact Or.inl h
        · exact Or.inr (List.mem_cons_of_mem _ h)
      · simp only [ringInsert, if_neg h1, if_neg h2] at h
        rcases List.mem_cons.mp h with h | h
        · exact Or.inr (by simp [h])
        · rcases ih h with h' | h'
          · exact Or.inl h'
          · exact Or.inr (List.mem_cons_of_mem _ h')

theorem mem_ringInsert_self (p : Nat) (v : Str) :
    ∀ l : List (Nat × Str), (p, v) ∈ ringInsert p v l := by
  intro l
  induction l with
  | nil => simp [ringInsert]
  | cons e rest ih =>
    by_cases h1 : p < e.1
    · simp [ringInsert, h1]
    · by_cases h2 : p = e.1
      · simp [ringInsert, h1, h2]
      · simpa [ringInsert, h1, h2] using Or.inr ih

theorem mem_ringInsert_of_mem {a : Nat × Str} (p : Nat) (v : Str) :
    ∀ l : List (Nat × Str), a ∈ l → a.1 ≠ p → a ∈ ringInsert p v l := by
  intro l
  induction l with
  | nil => simp
  | cons e rest ih =>
    intro ha hne
    by_cases h1 : p < e.1
    · simp only [ringInsert, if_pos h1]
      exact List.mem_cons_of_mem _ ha
    · by_cases h2 : p = e.1
      · simp only [ringInsert, if_neg h1, if_pos h2]
        rcases List.mem_cons.mp ha with rfl | ha'
        · exact absurd (show a.1 = p from h2.symm ▸ rfl) hne
        · exact List.mem_cons_of_mem _ ha'
      · simp only [ringInsert, if_neg h1, if_neg h2]
        rcases List.mem_cons.mp ha with rfl | ha'
        · exact List.mem_cons_self _ _
        · exact List.mem_cons_of_mem _ (ih ha' hne)

theorem length_ringInsert (p : Nat) (v : Str) :
    ∀ l : List (Nat × Str), ringMem p l = false →
      (ringInsert p v l).length = l.length + 1 := by
  intro l
  induction l with
  | nil => intro _; rfl
  | cons e rest ih =>
    intro hfresh
    rw [ringMem_cons] at hfresh
    rcases Bool.or_eq_false_iff.mp hfresh with ⟨he, hrest⟩
    have hne : e.1 ≠ p := by simpa using he
    by_cases h1 : p < e.1
    · simp [ringInsert, h1]
    · have h2 : p ≠ e.1 := fun hc => hne hc.symm
      simp [ringInsert, h1, h2, ih hrest]

theorem ringInsert_sorted (p : Nat) (v : Str) :
    ∀ l : List (Nat × Str), RingSorted l → ringMem p l = false →
      RingSorted (ringInsert p v l) := by
  intro l
  induction l with
  | nil => intro _ _; simp [ringInsert, RingSorted]
  | cons e rest ih =>
    intro hs hfresh
    rw [ringMem_cons] at hfresh
    rcases Bool.or_eq_false_iff.mp hfresh with ⟨he, hrest⟩
    have hne : e.1 ≠ p := by simpa using he
    rcases (List.pairwise_cons.mp hs) with ⟨hhead, htail⟩
    by_cases h1 : p < e.1
    · simp only [ringInsert, if_pos h1]
      refine List.pairwise_cons.mpr ⟨?_, hs⟩
      intro b hb
      rcases List.mem_cons.mp hb with rfl | hb'
      · exact h1
      · exact lt_trans h1 (hhead b hb')
    · have h2 : p ≠ e.1 := fun hc => hne hc.symm
      have h3 : e.1 < p := by omega
      simp only [ringInsert, if_neg h1, if_neg h2]
      refine List.pairwise_cons.mpr ⟨?_, ih htail hrest⟩
      intro b hb
      rcases mem_ringInsert p v rest hb with rfl | hb'
      · exact h3
      · exact hhead b hb'

/-! ### The collision probe finds the first free slot -/

theorem fnv_lt (s : Str) : fnv s < U32 := by
  have step : ∀ (l : Str) (a : Nat), a < U32 →
      l.foldl (fun h c => ((h ^^^ (c % 256)) * 16777619) % U32) a < U32 := by
    intro l
    induction l with
    | nil => intro a ha; simpa using ha
    | cons c cs ih =>
      intro a _
      exact ih _ (Nat.mod_lt _ (by norm_num [U32]))
  exact step s 2166136261 (by norm_num [U32])

theorem shift_mod (h k : Nat) : ((h + 1) % U32 + k) % U32 = (h + (k + 1)) % U32 := by
  conv_rhs => rw [show h + (k + 1) = h + 1 + k by omega]
  rw [Nat.mod_add_mod]

theorem probeAux_firstFree :
    ∀ (fuel : Nat) (l : List (Nat × Str)) (h : Nat), h < U32 →
      (∃ k < fuel, ringMem ((h + k) % U32) l = false) →
      FirstFree l h (probeAux fuel l h) := by
  intro fuel
  induction fuel with
  | zero => intro l h _ hex; exact absurd hex (by simp)
  | succ n ih =>
    intro l h hh hex
    by_cases hm : ringMem h l
    · have hstep : probeAux (n + 1) l h = probeAux n l ((h + 1) % U32) := by
        simp [probeAux, hm]
      obtain ⟨k, hk, hfree⟩ := hex
      have hk0 : k ≠ 0 := by
        intro hk0
        rw [hk0, Nat.add_zero, Nat.mod_eq_of_lt hh] at hfree
        rw [hm] at hfree
        exact Bool.true_eq_false.mp hfree
      obtain ⟨k', rfl⟩ := Nat.exists_eq_succ_of_ne_zero hk0
      have hex' : ∃ k < n, ringMem (((h + 1) % U32 + k) % U32) l = false := by
        refine ⟨k', by omega, ?_⟩
        rw [shift_mod]
        exact hfree
      obtain ⟨k2, hp, hfree2, hocc⟩ := ih l ((h + 1) % U32)
        (Nat.mod_lt _ (by norm_num [U32])) hex'
      refine ⟨k2 + 1, ?_, ?_, ?_⟩
      · rw [hstep, hp, shift_mod]
      · rw [hstep]; exact hfree2
      · intro j hj
        cases j with
        | zero => rw [Nat.add_zero, Nat.mod_eq_of_lt hh]; exact hm
        | succ j' =>
          rw [← shift_mod]
          exact hocc j' (by omega)
    · have hstep : probeAux (n + 1) l h = h := by
        simp [probeAux, hm]
      refine ⟨0, ?_, ?_, by omega⟩
      · rw [hstep, Nat.add_zero, Nat.mod_eq_of_lt hh]
      · rw [hstep]; exact Bool.eq_false_iff.mpr hm

theorem exists_free_slot (l : List (Nat × Str)) (h : Nat) (_hh : h < U32)
    (hl : l.length < U32) :
    ∃ k < l.length + 1, ringMem ((h + k) % U32) l = false := by
  by_contra hc
  push_neg at hc
  have hall : ∀ k < l.length + 1, ringMem ((h + k) % U32) l = true := by
    intro k hk
    exact Bool.not_eq_false _ |>.mp (fun hf => by
      have := hc k hk
      exact this hf)
  set L : List Nat := (List.range (l.length + 1)).map (fun k => (h + k) % U32) with hL
  have hU : U32 = 4294967296 := by norm_num [U32]
  have hnd : L.Nodup := by
    refine List.Nodup.map_on ?_ (List.nodup_range _)
    intro k1 hk1 k2 hk2 heq
    rw [List.mem_range] at hk1 hk2
    rw [hU] at heq
    rw [hU] at hl
    omega
  have hsub : L ⊆ l.map (·.1) := by
    intro x hx
    rw [hL, List.mem_map] at hx
    obtain ⟨k, hk, rfl⟩ := hx
    rw [List.mem_range] at hk
    exact (ringMem_iff _ _).mp (hall k hk)
  have hle : L.length ≤ (l.map (·.1)).length :=
    (List.subperm_of_subset hnd hsub).length_le
  rw [hL] at hle
  simp at hle

theorem placeVirtual_firstFree (l : List (Nat × Str)) (label : Str)
    (hl : l.length < U32) : FirstFree l (fnv label) (placeVirtual l label) :=
  probeAux_firstFree (l.length + 1) l (fnv label) (fnv_lt label)
    (exists_free_slot l (fnv label) (fnv_lt label) hl)

theorem placeVirtual_fresh (l : List (Nat × Str)) (label : Str)
    (hl : l.length < U32) : ringMem (placeVirtual l label) l = false := by
  obtain ⟨k, _, hfree, _⟩ := placeVirtual_firstFree l label hl
  exact hfree

/-! ### Successor-with-wraparound lookup and how one insertion moves it -/

theorem getNode_def (ch : ConsistentHash) (key : Str) :
    ch.getNode key = (routeEntry ch.ring (fnv key)).elim [] (·.2) := by
  unfold ConsistentHash.getNode routeEntry
  cases ch.ring with
  | nil => rfl
  | cons e0 rest =>
    cases hf : (e0 :: rest).find? (fun e => decide (fnv key ≤ e.1)) <;> simp [hf]

theorem routeEntry_mem {l : List (Nat × Str)} {h : Nat} {e : Nat × Str}
    (he : routeEntry l h = some e) : e ∈ l := by
  unfold routeEntry at he
  cases hf : l.find? (fun e => decide (h ≤ e.1)) with
  | some e' =>
    rw [hf] at he
    cases he
    exact List.mem_of_find?_eq_some hf
  | none =>
    rw [hf] at he
    cases l with
    | nil => exact absurd he (by simp)
    | cons e0 rest =>
      cases he
      exact List.mem_cons_self _ _

theorem routeEntry_eq_none {l : List (Nat × Str)} {h : Nat} :
    routeEntry l h = none ↔ l = [] := by
  unfold routeEntry
  cases l with
  | nil => simp
  | cons e0 rest =>
    cases hf : (e0 :: rest).find? (fun e => decide (h ≤ e.1)) <;> simp [hf]

theorem find?_ringInsert (p : Nat) (v : Str) (q : Nat × Str → Bool) :
    ∀ l : List (Nat × Str), ringMem p l = false →
      (ringInsert p v l).find? q = some (p, v) ∨
        (ringInsert p v l).find? q = l.find? q := by
  intro l
  induction l with
  | nil =>
    intro _
    by_cases hq : q (p, v)
    · exact Or.inl (by simp [ringInsert, List.find?, hq])
    · exact Or.inr (by simp [ringInsert, List.find?, hq])
  | cons e rest ih =>
    intro hfresh
    rw [ringMem_cons] at hfresh
    rcases Bool.or_eq_false_iff.mp hfresh with ⟨he, hrest⟩
    have hne : e.1 ≠ p := by simpa using he
    by_cases h1 : p < e.1
    · simp only [ringInsert, if_pos h1]
      by_cases hq : q (p, v)
      · exact Or.inl (by simp [List.find?, hq])
      · exact Or.inr (by simp [List.find?, hq])
    · have h2 : p ≠ e.1 := fun hc => hne hc.symm
      simp only [ringInsert, if_neg h1, if_neg h2]
      by_cases hqe : q e
      · exact Or.inr (by simp [List.find?, hqe])
      · rcases ih hrest with h | h
        · exact Or.inl (by simp [List.find?, hqe, h])
        · exact Or.inr (by simp [List.find?, hqe, h])

theorem head?_ringInsert (p : Nat) (v : Str) :
    ∀ l : List (Nat × Str), ringMem p l = false →
      (ringInsert p v l).head? = some (p, v) ∨
        (ringInsert p v l).head? = l.head? := by
  intro l
  cases l with
  | nil => intro _; exact Or.inl rfl
  | cons e rest =>
    intro hfresh
    rw [ringMem_cons] at hfresh
    rcases Bool.or_eq_false_iff.mp hfresh with ⟨he, _⟩
    have hne : e.1 ≠ p := by simpa using he
    by_cases h1 : p < e.1
    · exact Or.inl (by simp [ringInsert, h1])
    · have h2 : p ≠ e.1 := fun hc => hne hc.symm
      exact Or.inr (by simp [ringInsert, h1, h2])

theorem routeEntry_ringInsert (p : Nat) (v : Str) (l : List (Nat × Str))
    (h : Nat) (hfresh : ringMem p l = false) :
    routeEntry (ringInsert p v l) h = some (p, v) ∨
      routeEntry (ringInsert p v l) h = routeEntry l h := by
  unfold routeEntry
  rcases find?_ringInsert p v (fun e => decide (h ≤ e.1)) l hfresh with hf | hf
  · rw [hf]
    exact Or.inl rfl
  · rw [hf]
    cases hfind : l.find? (fun e => decide (h ≤ e.1)) with
    | some e => exact Or.inr rfl
    | none =>
      rcases head?_ringInsert p v l hfresh with hh | hh
      · rw [hh]; exact Or.inl rfl
      · rw [hh]; exact Or.inr rfl

/-- Through the whole virtual-node loop of `addNode name`, the successor entry
of any hash either stays what it was or becomes one of `name`'s new entries. -/
theorem addVirtualsFrom_route (name : Str) :
    ∀ (n i : Nat) (ring : List (Nat × Str)) (hs0 : List Nat),
      ring.length + n ≤ U32 → ∀ h,
      routeEntry (addVirtualsFrom name i n (ring, hs0)).1 h = routeEntry ring h ∨
        ∃ p, routeEntry (addVirtualsFrom name i n (ring, hs0)).1 h = some (p, name) := by
  intro n
  induction n with
  | zero => intro i ring hs0 _ h; exact Or.inl rfl
  | succ m ih =>
    intro i ring hs0 hlen h
    have hfresh : ringMem (placeVirtual ring (virtualLabel name i)) ring = false :=
      placeVirtual_fresh ring _ (by omega)
    have hstep : addVirtualsFrom name i (m + 1) (ring, hs0) =
        addVirtualsFrom name (i + 1) m
          (ringInsert (placeVirtual ring (virtualLabel name i)) name ring,
           hs0 ++ [placeVirtual ring (virtualLabel name i)]) := rfl
    rw [hstep]
    have hlen1 : (ringInsert (placeVirtual ring (virtualLabel name i)) name ring).length
        + m ≤ U32 := by
      rw [length_ringInsert _ _ _ hfresh]; omega
    rcases ih (i + 1) _ _ hlen1 h with h' | ⟨p, h'⟩
    · rcases routeEntry_ringInsert (placeVirtual ring (virtualLabel name i)) name
        ring h hfresh with h'' | h''
      · exact Or.inr ⟨_, h'.trans h''⟩
      · exact Or.inl (h'.trans h'')
    · exact Or.inr ⟨p, h'⟩

theorem addVirtualsFrom_sorted (name : Str) :
    ∀ (n i : Nat) (ring : List (Nat × Str)) (hs0 : List Nat),
      RingSorted ring → ring.length + n ≤ U32 →
      RingSorted (addVirtualsFrom name i n (ring, hs0)).1 := by
  intro n
  induction n with
  | zero => intro i ring hs0 hs _; exact hs
  | succ m ih =>
    intro i ring hs0 hs hlen
    have hfresh : ringMem (placeVirtual ring (virtualLabel name i)) ring = false :=
      placeVirtual_fresh ring _ (by omega)
    exact ih (i + 1)
      (ringInsert (placeVirtual ring (virtualLabel name i)) name ring)
      (hs0 ++ [placeVirtual ring (virtualLabel name i)])
      (ringInsert_sorted _ _ _ hs hfresh)
      (by rw [length_ringInsert _ _ _ hfresh]; omega)

theorem addNode_sorted (ch : ConsistentHash) (name : Str)
    (hs : RingSorted ch.ring)
    (hlen : ch.ring.length + ch.virtualNodesPerNode ≤ U32) :
    RingSorted (ConsistentHash.addNode name ch).ring := by
  unfold ConsistentHash.addNode
  by_cases hp : (mapFind? name ch.nodeToHashes).isSome = true
  · simpa [hp] using hs
  · simp only [Bool.not_eq_true] at hp
    simp only [hp, Bool.false_eq_true, if_false]
    exact addVirtualsFrom_sorted name ch.virtualNodesPerNode 0 ch.ring [] hs hlen

theorem ringSorted_nodup {l : List (Nat × Str)} (hs : RingSorted l) :
    (l.map (·.1)).Nodup := by
  exact List.pairwise_map.mpr (hs.imp (fun h => Nat.ne_of_lt h))

/-- **C1.** Minimal disruption on node addition: if node `B` is not already in
the ring and is added by `addNode B`, every key routes afterwards either to the
node it routed to before, or to `B`; a key whose successor entry is untouched
by `B`'s virtual positions keeps its owner. -/
theorem claim_C1 (ch : ConsistentHash) (B key : Str) (_hB : B ≠ [])
    (hnot : ConsistentHash.hasNode ch B = false)
    (hlen : ch.ring.length + ch.virtualNodesPerNode ≤ U32) :
    ConsistentHash.getNode (ConsistentHash.addNode B ch) key =
        ConsistentHash.getNode ch key ∨
      ConsistentHash.getNode (ConsistentHash.addNode B ch) key = B := by
  have hp : (mapFind? B ch.nodeToHashes).isSome = false := by
    simpa [ConsistentHash.hasNode] using hnot
  have hring : (ConsistentHash.addNode B ch).ring =
      (addVirtualsFrom B 0 ch.virtualNodesPerNode (ch.ring, [])).1 := by
    simp [ConsistentHash.addNode, hp]
  rw [getNode_def, getNode_def, hring]
  rcases addVirtualsFrom_route B ch.virtualNodesPerNode 0 ch.ring [] hlen (fnv key)
    with h | ⟨p, h⟩
  · rw [h]
    exact Or.inl rfl
  · rw [h]
    exact Or.inr rfl

/-- Witness for C1 at a concrete input: adding `"b"` to the one-node ring
`{"a"}` (one replica) re-routes the key `"p"` to `"a"` or to `"b"`. -/
theorem claim_C1_witness :
    ConsistentHash.getNode
        (ConsistentHash.addNode [98] (ConsistentHash.addNode [97] (mkCH 1))) [112] =
      ConsistentHash.getNode (ConsistentHash.addNode [97] (mkCH 1)) [112] ∨
    ConsistentHash.getNode
        (ConsistentHash.addNode [98] (ConsistentHash.addNode [97] (mkCH 1))) [112] = [98] :=
  claim_C1 (ConsistentHash.addNode [97] (mkCH 1)) [98] [112]
    (by decide) (by decide) (by decide)

/-- **C8.** Collision policy: `addNode` places every virtual label, via
`placeVirtual`, at the first position at or cyclically above its 32-bit hash
that is not already occupied, probing upward by 1 and wrapping at `2 ^ 32`
(`FirstFree`); consequently the ring stays strictly sorted, so its positions
are pairwise distinct.  Repeated construction with the same node set yields
the same ring because the embedded `addNode` is a pure function of the state. -/
theorem claim_C8 :
    (∀ (l : List (Nat × Str)) (label : Str), l.length < U32 →
        FirstFree l (fnv label) (placeVirtual l label)) ∧
    (∀ (ch : ConsistentHash) (name : Str), RingSorted ch.ring →
        ch.ring.length + ch.virtualNodesPerNode ≤ U32 →
        RingSorted (ConsistentHash.addNode name ch).ring ∧
          ((ConsistentHash.addNode name ch).ring.map (·.1)).Nodup) := by
  refine ⟨fun l label hl => placeVirtual_firstFree l label hl, ?_⟩
  intro ch name hs hlen
  have h := addNode_sorted ch name hs hlen
  exact ⟨h, ringSorted_nodup h⟩

/-- Witness for C8 at concrete inputs: the virtual label `"a#0"` is placed
first-free on the empty ring, and the two-node ring `{"a","b"}` with one
replica each is strictly sorted with distinct positions. -/
theorem claim_C8_witness :
    FirstFree [] (fnv [97, 35, 48]) (placeVirtual [] [97, 35, 48]) ∧
      (RingSorted
          (ConsistentHash.addNode [98] (ConsistentHash.addNode [97] (mkCH 1))).ring ∧
        ((ConsistentHash.addNode [98]
            (ConsistentHash.addNode [97] (mkCH 1))).ring.map (·.1)).Nodup) :=
  ⟨claim_C8.1 [] [97, 35, 48] (by decide),
   claim_C8.2 (ConsistentHash.addNode [97] (mkCH 1)) [98] (by decide) (by decide)⟩

/-! ### Basic lemmas about the sorted-map operations -/

theorem strLt_irrefl (s : Str) : strLt s s = false := by
  induction s with
  | nil => rfl
  | cons a as ih => simp [strLt, ih]

theorem mapFind?_mapInsert_self {α : Type} (name : Str) (v : α)
    (m : List (Str × α)) : mapFind? name (mapInsert name v m) = some v := by
  induction m with
  | nil => simp [mapInsert, mapFind?, List.find?]
  | cons e rest ih =>
    by_cases h1 : strLt name e.1
    · simp [mapInsert, h1, mapFind?, List.find?]
    · by_cases h2 : name = e.1
      · simp [mapInsert, h1, h2, mapFind?, List.find?, strLt_irrefl]
      · have he : (e.1 == name) = false := by
          simp only [beq_eq_false_iff_ne, ne_eq]
          exact fun hc => h2 hc.symm
        simpa [mapInsert, h1, h2, mapFind?, List.find?, he] using ih

theorem hasNode_addNode_self (ch : ConsistentHash) (name : Str) :
    ConsistentHash.hasNode (ConsistentHash.addNode name ch) name = true := by
  unfold ConsistentHash.addNode
  by_cases h : (mapFind? name ch.nodeToHashes).isSome
  · simp [h, ConsistentHash.hasNode]
  · simp [h, ConsistentHash.hasNode, mapFind?_mapInsert_self]

/-- **C9.** Idempotent duplicate add: `addNode(name)` on a ring that already
contains `name` leaves the state unchanged; hence a second `addNode` of the
same name is a no-op and `virtualNodeCount()` is unchanged after it. -/
theorem claim_C9 :
    (∀ (ch : ConsistentHash) (name : Str),
      ConsistentHash.hasNode ch name = true →
        ConsistentHash.addNode name ch = ch) ∧
    (∀ (ch : ConsistentHash) (name : Str),
      ConsistentHash.addNode name (ConsistentHash.addNode name ch) =
        ConsistentHash.addNode name ch) ∧
    (∀ (ch : ConsistentHash) (name : Str),
      ConsistentHash.getVirtualNodeCount
          (ConsistentHash.addNode name (ConsistentHash.addNode name ch)) =
        ConsistentHash.getVirtualNodeCount (ConsistentHash.addNode name ch)) := by
  have h1 : ∀ (ch : ConsistentHash) (name : Str),
      ConsistentHash.hasNode ch name = true →
        ConsistentHash.addNode name ch = ch := by
    intro ch name h
    unfold ConsistentHash.addNode
    simp [ConsistentHash.hasNode] at h
    simp [h]
  have h2 : ∀ (ch : ConsistentHash) (name : Str),
      ConsistentHash.addNode name (ConsistentHash.addNode name ch) =
        ConsistentHash.addNode name ch :=
    fun ch name => h1 _ name (hasNode_addNode_self ch name)
  exact ⟨h1, h2, fun ch name => by rw [h2]⟩

/-- Witness for C9 at a concrete input: adding `"x"` to a one-replica ring that
already holds `"x"` changes nothing. -/
theorem claim_C9_witness :
    ConsistentHash.addNode [120] (ConsistentHash.addNode [120] (mkCH 1)) =
      ConsistentHash.addNode [120] (mkCH 1) :=
  claim_C9.1 (ConsistentHash.addNode [120] (mkCH 1)) [120]
    (hasNode_addNode_self (mkCH 1) [120])

/-- **C6.** Write rejection with atomicity: `set` returns `false` and leaves
the whole store untouched when the key is empty or no servers are registered;
in particular on a fresh store with zero servers `totalEntries()` stays `0`. -/
theorem claim_C6 :
    (∀ (st : KeyValueStore) (key value : Str),
      key = [] ∨ KeyValueStore.getServerCount st = 0 →
        KeyValueStore.set key value st = (false, st)) ∧
    (∀ (r : Nat) (key value : Str),
      KeyValueStore.getTotalEntries (KeyValueStore.set key value (mkKV r)).2 = 0) := by
  have main : ∀ (st : KeyValueStore) (key value : Str),
      key = [] ∨ KeyValueStore.getServerCount st = 0 →
        KeyValueStore.set key value st = (false, st) := by
    rintro st key value (rfl | h0)
    · simp [KeyValueStore.set]
    · have hc : (st.hashRing.getNodeCount == 0) = true := by
        simpa [KeyValueStore.getServerCount] using h0
      cases hk : key.isEmpty
      · simp [KeyValueStore.set, hk, hc]
      · simp [KeyValueStore.set, hk]
  refine ⟨main, fun r key value => ?_⟩
  have h : KeyValueStore.set key value (mkKV r) = (false, mkKV r) := by
    apply main
    right
    simp [KeyValueStore.getServerCount, mkKV, mkCH, ConsistentHash.getNodeCount]
  rw [h]
  rfl

/-- Witness for C6 at a concrete input: `set "k" "v"` on a fresh store with no
servers is rejected and leaves the store unchanged. -/
theorem claim_C6_witness :
    KeyValueStore.set [107] [118] (mkKV 1) = (false, mkKV 1) :=
  claim_C6.1 (mkKV 1) [107] [118] (Or.inr (by decide))

/-- **C7.** Removal frames the data map: when server `s` is present,
`removeServer(s)` returns `true` and the `data` map (hence `totalEntries()`)
is exactly what it was before the call. -/
theorem claim_C7 (st : KeyValueStore) (sid : Str)
    (h : (mapFind? sid st.serverKeys).isSome = true) :
    (KeyValueStore.removeServer sid st).1 = true ∧
      (KeyValueStore.removeServer sid st).2.data = st.data ∧
      KeyValueStore.getTotalEntries (KeyValueStore.removeServer sid st).2 =
        KeyValueStore.getTotalEntries st := by
  obtain ⟨ks, hks⟩ := Option.isSome_iff_exists.mp h
  simp [KeyValueStore.removeServer, hks, KeyValueStore.getTotalEntries]

/-- Witness for C7 at a concrete input: removing the registered server `"a"`
from a store holding one key reports `true` and keeps `data` intact. -/
theorem claim_C7_witness :
    (KeyValueStore.removeServer [97]
        (KeyValueStore.set [112] [118] (KeyValueStore.addServer [97] (mkKV 1)).2).2).1
        = true ∧
      (KeyValueStore.removeServer [97]
        (KeyValueStore.set [112] [118] (KeyValueStore.addServer [97] (mkKV 1)).2).2).2.data
        = (KeyValueStore.set [112] [118] (KeyValueStore.addServer [97] (mkKV 1)).2).2.data ∧
      KeyValueStore.getTotalEntries (KeyValueStore.removeServer [97]
        (KeyValueStore.set [112] [118] (KeyValueStore.addServer [97] (mkKV 1)).2).2).2
        = KeyValueStore.getTotalEntries
            (KeyValueStore.set [112] [118] (KeyValueStore.addServer [97] (mkKV 1)).2).2 :=
  claim_C7 _ [97] (by decide)

/-! ### The byte-string order -/

theorem strLt_trans : ∀ (a b c : Str), strLt a b = true → strLt b c = true →
    strLt a c = true := by
  intro a
  induction a with
  | nil =>
    intro b c hab hbc
    cases b with
    | nil => simp [strLt] at hab
    | cons y ys =>
      cases c with
      | nil => simp [strLt] at hbc
      | cons z zs => simp [strLt]
  | cons x xs ih =>
    intro b c hab hbc
    cases b with
    | nil => simp [strLt] at hab
    | cons y ys =>
      cases c with
      | nil => simp [strLt] at hbc
      | cons z zs =>
        simp only [strLt] at hab hbc ⊢
        by_cases h1 : x < y
        · by_cases h2 : y < z
          · rw [if_pos (show x < z by omega)]
          · by_cases h3 : z < y
            · rw [if_neg h2, if_pos h3] at hbc
              exact absurd hbc (by simp)
            · rw [if_pos (show x < z by omega)]
        · by_cases h1' : y < x
          · rw [if_neg h1, if_pos h1'] at hab
            exact absurd hab (by simp)
          · rw [if_neg h1, if_neg h1'] at hab
            by_cases h2 : y < z
            · rw [if_pos (show x < z by omega)]
            · by_cases h3 : z < y
              · rw [if_neg h2, if_pos h3] at hbc
                exact absurd hbc (by simp)
              · rw [if_neg h2, if_neg h3] at hbc
                rw [if_neg (show ¬ x < z by omega), if_neg (show ¬ z < x by omega)]
                exact ih ys zs hab hbc

theorem strLt_total : ∀ a b : Str, a = b ∨ strLt a b = true ∨ strLt b a = true := by
  intro a
  induction a with
  | nil =>
    intro b
    cases b with
    | nil => exact Or.inl rfl
    | cons y ys => exact Or.inr (Or.inl (by simp [strLt]))
  | cons x xs ih =>
    intro b
    cases b with
    | nil => exact Or.inr (Or.inr (by simp [strLt]))
    | cons y ys =>
      by_cases h1 : x < y
      · exact Or.inr (Or.inl (by simp [strLt, h1]))
      · by_cases h2 : y < x
        · exact Or.inr (Or.inr (by simp [strLt, h2]))
        · have hxy : x = y := by omega
          subst hxy
          rcases ih ys with rfl | h | h
          · exact Or.inl rfl
          · exact Or.inr (Or.inl (by simp [strLt, h]))
          · exact Or.inr (Or.inr (by simp [strLt, h]))

theorem strLt_ne {a b : Str} (h : strLt a b = true) : a ≠ b := by
  intro hc
  subst hc
  rw [strLt_irrefl] at h
  exact Bool.false_ne_true h

/-! ### Association lists with unique keys -/

theorem eq_of_nodupKeys {α β : Type} {l : List (α × β)} {a b : α × β}
    (hnd : (List.map Prod.fst l).Nodup) (ha : a ∈ l) (hb : b ∈ l)
    (hab : a.1 = b.1) : a = b := by
  induction l with
  | nil => simp at ha
  | cons e rest ih =>
    rw [List.map_cons, List.nodup_cons] at hnd
    obtain ⟨hhead, htail⟩ := hnd
    rcases List.mem_cons.mp ha with rfl | ha' <;>
      rcases List.mem_cons.mp hb with rfl | hb'
    · rfl
    · exact absurd (hab ▸ List.mem_map.mpr ⟨b, hb', rfl⟩) hhead
    · exact absurd (hab ▸ List.mem_map.mpr ⟨a, ha', rfl⟩) hhead
    · exact ih htail ha' hb'

theorem sortedKeys_nodup {α : Type} {m : List (Str × α)} (hs : SortedKeys m) :
    (m.map (·.1)).Nodup :=
  List.pairwise_map.mpr (hs.imp (fun h => strLt_ne h))

theorem mem_mapInsert {α : Type} {a : Str × α} (name : Str) (v : α) :
    ∀ m : List (Str × α), a ∈ mapInsert name v m → a = (name, v) ∨ a ∈ m := by
  intro m
  induction m with
  | nil =>
    intro h
    simp only [mapInsert, List.mem_singleton] at h
    exact Or.inl h
  | cons e rest ih =>
    intro h
    by_cases h1 : strLt name e.1
    · simp only [mapInsert, if_pos h1] at h
      rcases List.mem_cons.mp h with h | h
      · exact Or.inl h
      · exact Or.inr h
    · by_cases h2 : name = e.1
      · simp only [mapInsert, if_neg h1, if_pos h2] at h
        rcases List.mem_cons.mp h with h | h
        · exact Or.inl h
        · exact Or.inr (List.mem_cons_of_mem _ h)
      · simp only [mapInsert, if_neg h1, if_neg h2] at h
        rcases List.mem_cons.mp h with h | h
        · exact Or.inr (by simp [h])
        · rcases ih h with h' | h'
          · exact Or.inl h'
          · exact Or.inr (List.mem_cons_of_mem _ h')

theorem mem_mapInsert_self {α : Type} (name : Str) (v : α) :
    ∀ m : List (Str × α), (name, v) ∈ mapInsert name v m := by
  intro m
  induction m with
  | nil => simp [mapInsert]
  | cons e rest ih =>
    by_cases h1 : strLt name e.1
    · simp [mapInsert, h1]
    · by_cases h2 : name = e.1
      · simp [mapInsert, h1, h2, strLt_irrefl]
      · simpa [mapInsert, h1, h2] using Or.inr ih

theorem mem_mapInsert_of_mem {α : Type} {a : Str × α} (name : Str) (v : α) :
    ∀ m : List (Str × α), a ∈ m → a.1 ≠ name → a ∈ mapInsert name v m := by
  intro m
  induction m with
  | nil => simp
  | cons e rest ih =>
    intro ha hne
    by_cases h1 : strLt name e.1
    · simp only [mapInsert, if_pos h1]
      exact List.mem_cons_of_mem _ ha
    · by_cases h2 : name = e.1
      · simp only [mapInsert, if_neg h1, if_pos h2]
        rcases List.mem_cons.mp ha with rfl | ha'
        · exact absurd (show a.1 = name from h2.symm ▸ rfl) hne
        · exact List.mem_cons_of_mem _ ha'
      · simp only [mapInsert, if_neg h1, if_neg h2]
        rcases List.mem_cons.mp ha with rfl | ha'
        · exact List.mem_cons_self _ _
        · exact List.mem_cons_of_mem _ (ih ha' hne)

theorem length_mapInsert {α : Type} (name : Str) (v : α) :
    ∀ m : List (Str × α), (∀ a ∈ m, a.1 ≠ name) →
      (mapInsert name v m).length = m.length + 1 := by
  intro m
  induction m with
  | nil => intro _; rfl
  | cons e rest ih =>
    intro hfresh
    have hne : e.1 ≠ name := hfresh e (List.mem_cons_self _ _)
    by_cases h1 : strLt name e.1
    · simp [mapInsert, h1]
    · have h2 : name ≠ e.1 := fun hc => hne hc.symm
      simp [mapInsert, h1, h2,
        ih (fun a ha => hfresh a (List.mem_cons_of_mem _ ha))]

theorem mapInsert_sorted {α : Type} (name : Str) (v : α) :
    ∀ m : List (Str × α), SortedKeys m → SortedKeys (mapInsert name v m) := by
  intro m
  induction m with
  | nil => intro _; simp [mapInsert]
  | cons e rest ih =>
    intro hs
    rcases List.pairwise_cons.mp hs with ⟨hhead, htail⟩
    by_cases h1 : strLt name e.1
    · simp only [mapInsert, if_pos h1]
      refine List.pairwise_cons.mpr ⟨?_, hs⟩
      intro b hb
      rcases List.mem_cons.mp hb with rfl | hb'
      · exact h1
      · exact strLt_trans _ _ _ h1 (hhead b hb')
    · by_cases h2 : name = e.1
      · simp only [mapInsert, if_neg h1, if_pos h2]
        refine List.pairwise_cons.mpr ⟨?_, htail⟩
        intro b hb
        exact h2 ▸ hhead b hb
      · have h3 : strLt e.1 name = true := by
          rcases strLt_total name e.1 with h | h | h
          · exact absurd h h2
          · exact absurd h h1
          · exact h
        simp only [mapInsert, if_neg h1, if_neg h2]
        refine List.pairwise_cons.mpr ⟨?_, ih htail⟩
        intro b hb
        rcases mem_mapInsert name v rest hb with rfl | hb'
        · exact h3
        · exact hhead b hb'

theorem mapFind?_eq_some_mem {α : Type} {name : Str} {v : α}
    {m : List (Str × α)} (h : mapFind? name m = some v) : (name, v) ∈ m := by
  unfold mapFind? at h
  cases hf : m.find? (fun e => e.1 == name) with
  | none => rw [hf] at h; exact absurd h (by simp)
  | some e =>
    rw [hf] at h
    simp at h
    have he : e ∈ m := List.mem_of_find?_eq_some hf
    have hkey : e.1 = name := by
      have := List.find?_some hf
      simpa using this
    have : e = (name, v) := by
      cases e
      simp only at hkey h
      rw [hkey, h]
    exact this ▸ he

theorem mem_mapFind? {α : Type} {name : Str} {v : α} :
    ∀ {m : List (Str × α)}, (m.map (·.1)).Nodup → (name, v) ∈ m →
      mapFind? name m = some v := by
  intro m
  induction m with
  | nil => intro _ h; simp at h
  | cons e rest ih =>
    intro hnd hm
    rw [List.map_cons, List.nodup_cons] at hnd
    obtain ⟨hhead, htail⟩ := hnd
    by_cases hk : e.1 = name
    · rcases List.mem_cons.mp hm with h | h
      · rw [← h]
        simp [mapFind?, List.find?, hk]
      · exact absurd (hk ▸ List.mem_map.mpr ⟨(name, v), h, rfl⟩) hhead
    · rcases List.mem_cons.mp hm with h | h
      · exact absurd (by rw [← h]) hk
      · have hkb : (e.1 == name) = false := by simp [hk]
        have := ih htail h
        simpa [mapFind?, List.find?, hkb] using this

theorem mapFind?_eq_none_iff {α : Type} (name : Str) (m : List (Str × α)) :
    mapFind? name m = none ↔ ∀ a ∈ m, a.1 ≠ name := by
  simp [mapFind?, List.find?_eq_none]

theorem mem_mapErase {α : Type} (a : Str × α) (name : Str) (m : List (Str × α)) :
    a ∈ mapErase name m ↔ a ∈ m ∧ a.1 ≠ name := by
  simp [mapErase, List.mem_filter]

theorem mapErase_sorted {α : Type} (name : Str) {m : List (Str × α)}
    (hs : SortedKeys m) : SortedKeys (mapErase name m) :=
  hs.sublist (List.filter_sublist m)

/-- Erasing a present key from an association list with pairwise distinct
keys removes exactly one entry. -/
theorem length_filterKey {κ β : Type} [BEq κ] [LawfulBEq κ] :
    ∀ (l : List (κ × β)) (k : κ), (l.map (·.1)).Nodup → k ∈ l.map (·.1) →
      (l.filter (fun e => !(e.1 == k))).length + 1 = l.length := by
  intro l k
  induction l with
  | nil => intro _ h; simp at h
  | cons e rest ih =>
    intro hnd hk
    rw [List.map_cons, List.nodup_cons] at hnd
    obtain ⟨hhead, htail⟩ := hnd
    by_cases he : e.1 = k
    · have hfr : rest.filter (fun a => !(a.1 == k)) = rest := by
        apply List.filter_eq_self.mpr
        intro a ha
        have hne : a.1 ≠ k := fun hc =>
          hhead (he ▸ hc ▸ List.mem_map.mpr ⟨a, ha, rfl⟩)
        simp [hne]
      simp [List.filter_cons, he, hfr]
    · have hk' : k ∈ rest.map (·.1) := by
        rcases List.mem_map.mp hk with ⟨a, ha, hak⟩
        rcases List.mem_cons.mp ha with rfl | ha'
        · exact absurd hak he
        · exact List.mem_map.mpr ⟨a, ha', hak⟩
      have := ih htail hk'
      simp only [List.filter_cons, List.length_cons]
      rw [if_pos (by simp [he])]
      simp only [List.length_cons]
      omega

/-! ### Erasing ring positions -/

theorem ringMem_of_mem {l : List (Nat × Str)} {e : Nat × Str} (he : e ∈ l) :
    ringMem e.1 l = true :=
  (ringMem_iff _ _).mpr (List.mem_map.mpr ⟨e, he, rfl⟩)

theorem ne_of_not_ringMem {l : List (Nat × Str)} {p : Nat}
    (h : ringMem p l = false) {e : Nat × Str} (he : e ∈ l) : e.1 ≠ p := by
  intro hc
  rw [← hc, ringMem_of_mem he] at h
  exact Bool.true_eq_false.mp h

theorem natContains_iff (l : List Nat) (a : Nat) :
    l.contains a = true ↔ a ∈ l := by
  simp

theorem foldl_ringErase_filter :
    ∀ (hs : List Nat) (l : List (Nat × Str)),
      hs.foldl (fun r p => ringErase p r) l =
        l.filter (fun e => !(hs.contains e.1)) := by
  intro hs
  induction hs with
  | nil =>
    intro l
    simp
  | cons p ps ih =>
    intro l
    simp only [List.foldl_cons]
    rw [ih (ringErase p l)]
    unfold ringErase
    rw [List.filter_filter]
    apply List.filter_congr
    intro a _
    by_cases h1 : a.1 = p <;> by_cases h2 : a.1 ∈ ps <;>
      simp [h1, h2, List.contains_cons]

theorem foldl_ringErase_length :
    ∀ (hs : List Nat) (l : List (Nat × Str)),
      (l.map (·.1)).Nodup → hs.Nodup → (∀ p ∈ hs, p ∈ l.map (·.1)) →
      (hs.foldl (fun r p => ringErase p r) l).length + hs.length = l.length := by
  intro hs
  induction hs with
  | nil => intro l _ _ _; simp
  | cons p ps ih =>
    intro l hnd hpnd hmem
    rw [List.nodup_cons] at hpnd
    obtain ⟨hpn, hpsnd⟩ := hpnd
    simp only [List.foldl_cons, List.length_cons]
    have h1 : (ringErase p l).length + 1 = l.length :=
      length_filterKey l p hnd (hmem p (List.mem_cons_self _ _))
    have h2 : ((ringErase p l).map (·.1)).Nodup :=
      hnd.sublist ((List.filter_sublist l).map (·.1))
    have h3 : ∀ q ∈ ps, q ∈ (ringErase p l).map (·.1) := by
      intro q hq
      obtain ⟨e, he, heq⟩ := List.mem_map.mp (hmem q (List.mem_cons_of_mem _ hq))
      have hqp : q ≠ p := fun hc => hpn (hc ▸ hq)
      refine List.mem_map.mpr ⟨e, ?_, heq⟩
      refine List.mem_filter.mpr ⟨he, ?_⟩
      simp [heq, hqp]
    have := ih (ringErase p l) h2 hpsnd h3
    omega

/-! ### The full effect of the virtual-node insertion loop -/

theorem addVirtualsFrom_spec (name : Str) :
    ∀ (n i : Nat) (ring : List (Nat × Str)) (hs0 : List Nat),
      RingSorted ring → ring.length + n ≤ U32 →
      (addVirtualsFrom name i n (ring, hs0)).1.length = ring.length + n ∧
      ∃ new : List Nat,
        (addVirtualsFrom name i n (ring, hs0)).2 = hs0 ++ new ∧
        new.length = n ∧ new.Nodup ∧
        (∀ p ∈ new, (p, name) ∈ (addVirtualsFrom name i n (ring, hs0)).1 ∧
          ringMem p ring = false) ∧
        (∀ e ∈ (addVirtualsFrom name i n (ring, hs0)).1,
          e ∈ ring ∨ (e.2 = name ∧ e.1 ∈ new)) ∧
        (∀ e ∈ ring, e ∈ (addVirtualsFrom name i n (ring, hs0)).1) := by
  intro n
  induction n with
  | zero =>
    intro i ring hs0 _ _
    exact ⟨rfl, [], by simp [addVirtualsFrom], rfl, List.nodup_nil, by simp,
      fun e he => Or.inl he, fun e he => he⟩
  | succ m ih =>
    intro i ring hs0 hsort hlen
    have hfresh : ringMem (placeVirtual ring (virtualLabel name i)) ring = false :=
      placeVirtual_fresh ring _ (by omega)
    have hsort1 : RingSorted
        (ringInsert (placeVirtual ring (virtualLabel name i)) name ring) :=
      ringInsert_sorted _ _ _ hsort hfresh
    have hlen1 : (ringInsert (placeVirtual ring (virtualLabel name i)) name
        ring).length = ring.length + 1 := length_ringInsert _ _ _ hfresh
    have hstep : addVirtualsFrom name i (m + 1) (ring, hs0) =
        addVirtualsFrom name (i + 1) m
          (ringInsert (placeVirtual ring (virtualLabel name i)) name ring,
           hs0 ++ [placeVirtual ring (virtualLabel name i)]) := rfl
    rw [hstep]
    obtain ⟨hL, new', hhs, hlen', hnd', hmem', hcov', hsub'⟩ :=
      ih (i + 1) (ringInsert (placeVirtual ring (virtualLabel name i)) name ring)
        (hs0 ++ [placeVirtual ring (virtualLabel name i)]) hsort1 (by omega)
    refine ⟨by rw [hL, hlen1]; omega,
      placeVirtual ring (virtualLabel name i) :: new', ?_, by simp [hlen'], ?_,
      ?_, ?_, ?_⟩
    · rw [hhs]
      simp
    · refine List.nodup_cons.mpr ⟨?_, hnd'⟩
      intro hp0new
      have hfalse := (hmem' _ hp0new).2
      have htrue : ringMem (placeVirtual ring (virtualLabel name i))
          (ringInsert (placeVirtual ring (virtualLabel name i)) name ring) = true :=
        ringMem_of_mem (mem_ringInsert_self _ _ _)
      rw [hfalse] at htrue
      exact Bool.false_ne_true htrue
    · intro p hp
      rcases List.mem_cons.mp hp with rfl | hp'
      · exact ⟨hsub' _ (mem_ringInsert_self _ _ _), hfresh⟩
      · refine ⟨(hmem' p hp').1, ?_⟩
        have h1 := (hmem' p hp').2
        cases hb : ringMem p ring with
        | false => rfl
        | true =>
          obtain ⟨e, he, hep⟩ := List.mem_map.mp ((ringMem_iff _ _).mp hb)
          have hne : e.1 ≠ placeVirtual ring (virtualLabel name i) :=
            ne_of_not_ringMem hfresh he
          have he1 : e ∈ ringInsert (placeVirtual ring (virtualLabel name i))
              name ring := mem_ringInsert_of_mem _ _ _ he hne
          have := ringMem_of_mem he1
          rw [hep] at this
          rw [h1] at this
          exact absurd this Bool.false_ne_true
    · intro e he
      rcases hcov' e he with h | h
      · rcases mem_ringInsert _ _ _ h with rfl | h'
        · exact Or.inr ⟨rfl, List.mem_cons_self _ _⟩
        · exact Or.inl h'
      · exact Or.inr ⟨h.1, List.mem_cons_of_mem _ h.2⟩
    · intro e he
      exact hsub' e (mem_ringInsert_of_mem _ _ _ he (ne_of_not_ringMem hfresh he))

/-! ### The ring invariant is preserved by every public operation -/

theorem invCH_addNode {ch : ConsistentHash} (name : Str) (inv : InvCH ch)
    (hn : name ≠ []) (hlen : ch.ring.length + ch.virtualNodesPerNode ≤ U32) :
    InvCH (ConsistentHash.addNode name ch) := by
  by_cases hp : (mapFind? name ch.nodeToHashes).isSome = true
  · unfold ConsistentHash.addNode
    simpa [hp] using inv
  · have hpn : mapFind? name ch.nodeToHashes = none := by
      cases hq : mapFind? name ch.nodeToHashes
      · rfl
      · rw [hq] at hp
        simp at hp
    have hfreshkeys : ∀ a ∈ ch.nodeToHashes, a.1 ≠ name :=
      (mapFind?_eq_none_iff _ _).mp hpn
    obtain ⟨hL, new, hhs, hlennew, hnd, hmem, hcov, hsub⟩ :=
      addVirtualsFrom_spec name ch.virtualNodesPerNode 0 ch.ring []
        inv.ringSorted hlen
    rw [List.nil_append] at hhs
    have haddeq : ConsistentHash.addNode name ch =
        { ch with
          ring := (addVirtualsFrom name 0 ch.virtualNodesPerNode (ch.ring, [])).1,
          nodeToHashes :=
            mapInsert name
              (addVirtualsFrom name 0 ch.virtualNodesPerNode (ch.ring, [])).2
              ch.nodeToHashes } := by
      simp [ConsistentHash.addNode, hpn]
    rw [haddeq]
    refine ⟨inv.posReplicas, ?_, ?_, ?_, ?_, ?_⟩
    · exact addVirtualsFrom_sorted name ch.virtualNodesPerNode 0 ch.ring []
        inv.ringSorted hlen
    · exact mapInsert_sorted _ _ _ inv.keysSorted
    · have hmlen : (mapInsert name
          (addVirtualsFrom name 0 ch.virtualNodesPerNode (ch.ring, [])).2
          ch.nodeToHashes).length = ch.nodeToHashes.length + 1 :=
        length_mapInsert _ _ _ hfreshkeys

      simp only [hmlen, hL, inv.count, Nat.mul_succ]
    · intro e he
      rcases mem_mapInsert _ _ _ he with rfl | he'
      · refine ⟨hn, ?_, ?_, ?_⟩
        · simp only [hhs, hlennew]
        · simp only [hhs]
          exact hnd
        · intro p hp
          rw [hhs] at hp
          exact (hmem p hp).1
      · obtain ⟨h1, h2, h3, h4⟩ := inv.nodes e he'
        exact ⟨h1, h2, h3, fun p hp => hsub _ (h4 p hp)⟩
    · intro e he
      rcases hcov e he with h | ⟨h2, h1⟩
      · obtain ⟨hs', hin, hpin⟩ := inv.cover e h
        exact ⟨hs', mem_mapInsert_of_mem _ _ _ hin (hfreshkeys _ hin), hpin⟩
      · refine ⟨(addVirtualsFrom name 0 ch.virtualNodesPerNode (ch.ring, [])).2,
          ?_, ?_⟩
        · rw [h2]
          exact mem_mapInsert_self _ _ _
        · rw [hhs]
          exact h1

theorem invCH_removeNode {ch : ConsistentHash} (name : Str) (inv : InvCH ch) :
    InvCH (ConsistentHash.removeNode name ch).2 := by
  cases hq : mapFind? name ch.nodeToHashes with
  | none =>
    unfold ConsistentHash.removeNode
    rw [hq]
    exact inv
  | some hs =>
    have hremeq : (ConsistentHash.removeNode name ch).2 =
        { ch with ring := hs.foldl (fun r p => ringErase p r) ch.ring,
                  nodeToHashes := mapErase name ch.nodeToHashes } := by
      simp [ConsistentHash.removeNode, hq]
    rw [hremeq]
    have hmemidx : (name, hs) ∈ ch.nodeToHashes := mapFind?_eq_some_mem hq
    obtain ⟨hnne, hlenhs, hndhs, hposhs⟩ := inv.nodes _ hmemidx
    have hring' : hs.foldl (fun r p => ringErase p r) ch.ring =
        ch.ring.filter (fun e => !(hs.contains e.1)) :=
      foldl_ringErase_filter hs ch.ring
    have hposnd : (ch.ring.map (·.1)).Nodup := ringSorted_nodup inv.ringSorted
    have hkeysnd : (ch.nodeToHashes.map (·.1)).Nodup :=
      sortedKeys_nodup inv.keysSorted
    refine ⟨inv.posReplicas, ?_, ?_, ?_, ?_, ?_⟩
    · rw [hring']
      exact inv.ringSorted.sublist (List.filter_sublist _)
    · exact mapErase_sorted _ inv.keysSorted
    · show (hs.foldl (fun r p => ringErase p r) ch.ring).length =
        ch.virtualNodesPerNode * (mapErase name ch.nodeToHashes).length
      have hfold : (hs.foldl (fun r p => ringErase p r) ch.ring).length
          + hs.length = ch.ring.length := by
        refine foldl_ringErase_length hs ch.ring hposnd hndhs ?_
        intro p hp
        exact List.mem_map.mpr ⟨(p, name), hposhs p hp, rfl⟩
      have hk : ch.nodeToHashes.length =
          (mapErase name ch.nodeToHashes).length + 1 :=
        (length_filterKey ch.nodeToHashes name hkeysnd
          (List.mem_map.mpr ⟨(name, hs), hmemidx, rfl⟩)).symm
      have hcnt := inv.count
      rw [hk, Nat.mul_succ] at hcnt
      rw [hlenhs] at hfold
      omega
    · intro e he
      rw [mem_mapErase] at he
      obtain ⟨he', hene⟩ := he
      obtain ⟨h1, h2, h3, h4⟩ := inv.nodes e he'
      refine ⟨h1, h2, h3, fun p hp => ?_⟩
      have hpe : (p, e.1) ∈ ch.ring := h4 p hp
      have hpnot : hs.contains p = false := by
        cases hc : hs.contains p with
        | false => rfl
        | true =>
          have hpin : p ∈ hs := (natContains_iff _ _).mp hc
          have hpn : (p, name) ∈ ch.ring := hposhs p hpin
          have := eq_of_nodupKeys hposnd hpe hpn rfl
          exact absurd (congrArg Prod.snd this) hene
      rw [hring']
      refine List.mem_filter.mpr ⟨hpe, ?_⟩
      show (!(hs.contains p)) = true
      rw [hpnot]
      rfl
    · intro e he
      rw [hring'] at he
      obtain ⟨he', hesurv⟩ := List.mem_filter.mp he
      obtain ⟨hs', hin, hpin⟩ := inv.cover e he'
      have hene : e.2 ≠ name := by
        intro hc
        have heq : (e.2, hs') = (name, hs) :=
          eq_of_nodupKeys hkeysnd hin hmemidx (by rw [hc])
        have hhs' : hs' = hs := congrArg Prod.snd heq
        rw [hhs'] at hpin
        rw [(natContains_iff hs e.1).mpr hpin] at hesurv
        simp at hesurv
      exact ⟨hs', (mem_mapErase _ _ _).mpr ⟨hin, hene⟩, hpin⟩

theorem invCH_of_reachable {ch : ConsistentHash} (h : ReachableCH ch) :
    InvCH ch := by
  induction h with
  | init r hr =>
    exact ⟨hr, by simp [mkCH], by simp [mkCH], by simp [mkCH],
      by simp [mkCH], by simp [mkCH]⟩
  | add name _ hn hlen ih => exact invCH_addNode name ih hn hlen
  | remove name _ ih => exact invCH_removeNode name ih
  | clearStep _ ih =>
    exact ⟨ih.posReplicas, by simp [ConsistentHash.clear],
      by simp [ConsistentHash.clear], by simp [ConsistentHash.clear],
      by simp [ConsistentHash.clear], by simp [ConsistentHash.clear]⟩

/-- **C10.** Ring-size invariant: in every reachable ring state,
`virtualNodeCount()` equals `replicasPerNode * nodeCount()`, every recorded
position of the side index is in the ring under its node, and every ring
entry's position is recorded in the side index under its owner. -/
theorem claim_C10 (ch : ConsistentHash) (h : ReachableCH ch) :
    ConsistentHash.getVirtualNodeCount ch =
        ch.virtualNodesPerNode * ConsistentHash.getNodeCount ch ∧
      (∀ e ∈ ch.nodeToHashes, ∀ p ∈ e.2, (p, e.1) ∈ ch.ring) ∧
      (∀ e ∈ ch.ring, ∃ hs, (e.2, hs) ∈ ch.nodeToHashes ∧ e.1 ∈ hs) := by
  have inv := invCH_of_reachable h
  exact ⟨inv.count, fun e he => (inv.nodes e he).2.2.2, inv.cover⟩

/-- Witness for C10 at a concrete reachable state: the two-node ring
`{"a","b"}` with one replica per node. -/
theorem claim_C10_witness :
    ConsistentHash.getVirtualNodeCount
          (ConsistentHash.addNode [98] (ConsistentHash.addNode [97] (mkCH 1))) =
        (ConsistentHash.addNode [98]
            (ConsistentHash.addNode [97] (mkCH 1))).virtualNodesPerNode *
          ConsistentHash.getNodeCount
            (ConsistentHash.addNode [98] (ConsistentHash.addNode [97] (mkCH 1))) ∧
      (∀ e ∈ (ConsistentHash.addNode [98]
          (ConsistentHash.addNode [97] (mkCH 1))).nodeToHashes,
        ∀ p ∈ e.2, (p, e.1) ∈
          (ConsistentHash.addNode [98] (ConsistentHash.addNode [97] (mkCH 1))).ring) ∧
      (∀ e ∈ (ConsistentHash.addNode [98]
          (ConsistentHash.addNode [97] (mkCH 1))).ring,
        ∃ hs, (e.2, hs) ∈ (ConsistentHash.addNode [98]
            (ConsistentHash.addNode [97] (mkCH 1))).nodeToHashes ∧ e.1 ∈ hs) :=
  claim_C10 _
    (ReachableCH.add [98]
      (ReachableCH.add [97] (ReachableCH.init 1 Nat.one_pos)
        (by decide) (by decide))
      (by decide) (by decide))

/-- **C4.** Total coverage of routing: on every reachable state with a
non-empty ring, `route(key)` returns a non-empty node name that is a member
of `allNodes()`. -/
theorem claim_C4 (ch : ConsistentHash) (h : ReachableCH ch)
    (hne : ch.ring ≠ []) (key : Str) :
    ConsistentHash.getNode ch key ≠ [] ∧
      ConsistentHash.getNode ch key ∈ ConsistentHash.getAllNodes ch := by
  have inv := invCH_of_reachable h
  rw [getNode_def]
  cases hr : routeEntry ch.ring (fnv key) with
  | none => exact absurd (routeEntry_eq_none.mp hr) hne
  | some e =>
    have hmem : e ∈ ch.ring := routeEntry_mem hr
    obtain ⟨hs, hin, _⟩ := inv.cover e hmem
    obtain ⟨hnne, _, _, _⟩ := inv.nodes _ hin
    exact ⟨hnne, List.mem_map.mpr ⟨(e.2, hs), hin, rfl⟩⟩

/-- Witness for C4 at a concrete input: the key `"p"` routes to a registered,
non-empty node name on the reachable two-node ring `{"a","b"}`. -/
theorem claim_C4_witness :
    ConsistentHash.getNode
        (ConsistentHash.addNode [98] (ConsistentHash.addNode [97] (mkCH 1))) [112]
        ≠ [] ∧
      ConsistentHash.getNode
          (ConsistentHash.addNode [98] (ConsistentHash.addNode [97] (mkCH 1))) [112]
        ∈ ConsistentHash.getAllNodes
          (ConsistentHash.addNode [98] (ConsistentHash.addNode [97] (mkCH 1))) :=
  claim_C4 _
    (ReachableCH.add [98]
      (ReachableCH.add [97] (ReachableCH.init 1 Nat.one_pos)
        (by decide) (by decide))
      (by decide) (by decide))
    (by decide) [112]

/-! ### The replica-collection walk -/

theorem strContains_iff (l : List Str) (a : Str) :
    l.contains a = true ↔ a ∈ l := by
  simp

theorem findIdx_spec {α : Type} (l : List α) (p : α → Bool) :
    (match l.find? p with
     | some e => (l.drop (l.findIdx p)).head? = some e ∧ l.findIdx p < l.length
     | none => l.findIdx p = l.length) := by
  induction l with
  | nil => simp
  | cons a rest ih =>
    by_cases hp : p a
    · simp [List.find?_cons, List.findIdx_cons, hp]
    · rw [List.find?_cons_of_neg _ (by simpa using hp)]
      rw [List.findIdx_cons]
      simp only [hp, cond_false]
      cases hf : rest.find? p with
      | some e =>
        rw [hf] at ih
        obtain ⟨h1, h2⟩ := ih
        exact ⟨by simpa using h1, by simpa using h2⟩
      | none =>
        rw [hf] at ih
        simpa using ih

theorem collectNodes_subset (c : Nat) :
    ∀ (l : List (Nat × Str)) (acc : List Str) (x : Str),
      x ∈ collectNodes c l acc → x ∈ acc ∨ x ∈ l.map (·.2) := by
  intro l
  induction l with
  | nil => intro acc x hx; exact Or.inl hx
  | cons e rest ih =>
    intro acc x hx
    simp only [collectNodes] at hx
    by_cases h1 : c ≤ acc.length
    · rw [if_pos h1] at hx
      exact Or.inl hx
    · rw [if_neg h1] at hx
      by_cases h2 : acc.contains e.2
      · rw [if_pos h2] at hx
        rcases ih acc x hx with h | h
        · exact Or.inl h
        · exact Or.inr (by simp [h])
      · rw [if_neg h2] at hx
        rcases ih (acc ++ [e.2]) x hx with h | h
        · rcases List.mem_append.mp h with h' | h'
          · exact Or.inl h'
          · exact Or.inr (by simp [List.mem_singleton.mp h'])
        · exact Or.inr (by simp [h])

theorem collectNodes_nodup (c : Nat) :
    ∀ (l : List (Nat × Str)) (acc : List Str), acc.Nodup →
      (collectNodes c l acc).Nodup := by
  intro l
  induction l with
  | nil => intro acc h; exact h
  | cons e rest ih =>
    intro acc hacc
    simp only [collectNodes]
    by_cases h1 : c ≤ acc.length
    · rw [if_pos h1]; exact hacc
    · rw [if_neg h1]
      by_cases h2 : acc.contains e.2
      · rw [if_pos h2]; exact ih acc hacc
      · rw [if_neg h2]
        refine ih _ ?_
        have hni : e.2 ∉ acc := fun hc =>
          h2 ((strContains_iff acc e.2).mpr hc)
        simp [List.nodup_append, hacc, hni]

theorem collectNodes_append (c : Nat) :
    ∀ (l : List (Nat × Str)) (acc : List Str),
      ∃ ext, collectNodes c l acc = acc ++ ext := by
  intro l
  induction l with
  | nil => intro acc; exact ⟨[], by simp [collectNodes]⟩
  | cons e rest ih =>
    intro acc
    simp only [collectNodes]
    by_cases h1 : c ≤ acc.length
    · rw [if_pos h1]; exact ⟨[], by simp⟩
    · rw [if_neg h1]
      by_cases h2 : acc.contains e.2
      · rw [if_pos h2]; exact ih acc
      · rw [if_neg h2]
        obtain ⟨ext, hext⟩ := ih (acc ++ [e.2])
        exact ⟨[e.2] ++ ext, by rw [hext, List.append_assoc]⟩

theorem collectNodes_length_le (c : Nat) :
    ∀ (l : List (Nat × Str)) (acc : List Str), acc.length ≤ c →
      (collectNodes c l acc).length ≤ c := by
  intro l
  induction l with
  | nil => intro acc h; exact h
  | cons e rest ih =>
    intro acc hacc
    simp only [collectNodes]
    by_cases h1 : c ≤ acc.length
    · rw [if_pos h1]; exact hacc
    · rw [if_neg h1]
      by_cases h2 : acc.contains e.2
      · rw [if_pos h2]; exact ih acc hacc
      · rw [if_neg h2]
        refine ih _ ?_
        simp only [List.length_append, List.length_singleton]
        omega

theorem collectNodes_covers (c : Nat) :
    ∀ (l : List (Nat × Str)) (acc : List Str),
      (collectNodes c l acc).length < c →
      ∀ x, (x ∈ acc ∨ x ∈ l.map (·.2)) → x ∈ collectNodes c l acc := by
  intro l
  induction l with
  | nil =>
    intro acc _ x hx
    rcases hx with h | h
    · exact h
    · simp at h
  | cons e rest ih =>
    intro acc hlen x hx
    simp only [collectNodes] at hlen ⊢
    by_cases h1 : c ≤ acc.length
    · rw [if_pos h1] at hlen
      omega
    · rw [if_neg h1] at hlen ⊢
      by_cases h2 : acc.contains e.2
      · rw [if_pos h2] at hlen ⊢
        refine ih acc hlen x ?_
        rcases hx with h | h
        · exact Or.inl h
        · rcases List.mem_map.mp h with ⟨a, ha, hax⟩
          rcases List.mem_cons.mp ha with rfl | ha'
          · exact Or.inl (hax ▸ (strContains_iff acc a.2).mp h2)
          · exact Or.inr (List.mem_map.mpr ⟨a, ha', hax⟩)
      · rw [if_neg h2] at hlen ⊢
        refine ih (acc ++ [e.2]) hlen x ?_
        rcases hx with h | h
        · exact Or.inl (List.mem_append.mpr (Or.inl h))
        · rcases List.mem_map.mp h with ⟨a, ha, hax⟩
          rcases List.mem_cons.mp ha with rfl | ha'
          · exact Or.inl (List.mem_append.mpr (Or.inr (by simp [hax])))
          · exact Or.inr (List.mem_map.mpr ⟨a, ha', hax⟩)

theorem rot_mem (l : List (Nat × Str)) (s : Nat) (a : Nat × Str) :
    a ∈ l.drop s ++ l.take s ↔ a ∈ l := by
  constructor
  · intro h
    rcases List.mem_append.mp h with h | h
    · exact (List.drop_sublist _ _).subset h
    · exact (List.take_sublist _ _).subset h
  · intro h
    conv at h => rw [← List.take_append_drop s l]
    rcases List.mem_append.mp h with h | h
    · exact List.mem_append.mpr (Or.inr h)
    · exact List.mem_append.mpr (Or.inl h)

theorem rot_head (l : List (Nat × Str)) (h : Nat) {e : Nat × Str}
    (he : routeEntry l h = some e) :
    (l.drop (rotStart l h) ++ l.take (rotStart l h)).head? = some e := by
  unfold routeEntry at he
  unfold rotStart
  cases hf : l.find? (fun x => decide (h ≤ x.1)) with
  | some e' =>
    rw [hf] at he
    cases he
    have hspec := findIdx_spec l (fun x => decide (h ≤ x.1))
    rw [hf] at hspec
    obtain ⟨h1, h2⟩ := hspec
    rw [if_pos h2]
    cases hd : l.drop (l.findIdx (fun x => decide (h ≤ x.1))) with
    | nil =>
      rw [hd] at h1
      exact absurd h1 (by simp)
    | cons b tl =>
      rw [hd] at h1
      simp only [List.head?_cons, Option.some.injEq] at h1
      simp [h1]
  | none =>
    rw [hf] at he
    have hspec := findIdx_spec l (fun x => decide (h ≤ x.1))
    rw [hf] at hspec
    rw [hspec, if_neg (lt_irrefl _)]
    simpa using he

theorem getNodes_eq (ch : ConsistentHash) (key : Str) (n : Nat)
    (hne : ch.ring ≠ []) (hn : 1 ≤ n) :
    ConsistentHash.getNodes ch key n =
      collectNodes n
        (ch.ring.drop (rotStart ch.ring (fnv key)) ++
          ch.ring.take (rotStart ch.ring (fnv key))) [] := by
  have hcond : (ch.ring.isEmpty || n == 0) = false := by
    cases hr : ch.ring with
    | nil => exact absurd hr hne
    | cons a tl =>
      simp only [hr, List.isEmpty_cons, Bool.false_or, beq_eq_false_iff_ne,
        ne_eq]
      omega
  simp only [ConsistentHash.getNodes, hcond, Bool.false_eq_true, if_false]
  rfl

/-- **C5.** Replica routing: on every reachable state, for `n ≥ 1`,
`routeReplicas(key, n)` returns pairwise-distinct node names starting with
`route(key)`; it has exactly `n` entries when the ring has at least `n`
physical nodes, and exactly one entry per physical node otherwise. -/
theorem claim_C5 (ch : ConsistentHash) (h : ReachableCH ch) (key : Str)
    (n : Nat) (hn : 1 ≤ n) :
    (ConsistentHash.getNodes ch key n).Nodup ∧
      (ch.ring ≠ [] →
        (ConsistentHash.getNodes ch key n).head? =
          some (ConsistentHash.getNode ch key)) ∧
      (n ≤ ConsistentHash.getNodeCount ch →
        (ConsistentHash.getNodes ch key n).length = n) ∧
      (ConsistentHash.getNodeCount ch < n →
        (ConsistentHash.getNodes ch key n).length =
          ConsistentHash.getNodeCount ch) := by
  have inv := invCH_of_reachable h
  by_cases hring : ch.ring = []
  · have hempty : ConsistentHash.getNodes ch key n = [] := by
      simp [ConsistentHash.getNodes, hring]
    have hk0 : ConsistentHash.getNodeCount ch = 0 := by
      have hcnt := inv.count
      rw [hring] at hcnt
      have hr := inv.posReplicas
      unfold ConsistentHash.getNodeCount
      rcases Nat.mul_eq_zero.mp hcnt.symm with h0 | h0
      · omega
      · exact h0
    refine ⟨by simp [hempty], fun hc => absurd hring hc, ?_, ?_⟩
    · intro hcon
      rw [hk0] at hcon
      omega
    · intro _
      rw [hempty, hk0]
      rfl
  · have hexp := getNodes_eq ch key n hring hn
    obtain ⟨er, her⟩ : ∃ e, routeEntry ch.ring (fnv key) = some e := by
      cases hr0 : routeEntry ch.ring (fnv key) with
      | none => exact absurd (routeEntry_eq_none.mp hr0) hring
      | some e => exact ⟨e, rfl⟩
    have hrothead := rot_head ch.ring (fnv key) her
    obtain ⟨rtl2, hrote⟩ : ∃ t,
        ch.ring.drop (rotStart ch.ring (fnv key)) ++
          ch.ring.take (rotStart ch.ring (fnv key)) = er :: t := by
      cases hro : ch.ring.drop (rotStart ch.ring (fnv key)) ++
          ch.ring.take (rotStart ch.ring (fnv key)) with
      | nil =>
        rw [hro] at hrothead
        exact absurd hrothead (by simp)
      | cons b tl =>
        rw [hro] at hrothead
        simp only [List.head?_cons, Option.some.injEq] at hrothead
        exact ⟨tl, by rw [hrothead]⟩
    have hgetnode : ConsistentHash.getNode ch key = er.2 := by
      rw [getNode_def, her]
      rfl
    obtain ⟨ext, hext⟩ := collectNodes_append n rtl2 [er.2]
    have hres : ConsistentHash.getNodes ch key n = [er.2] ++ ext := by
      rw [hexp, hrote]
      simp only [collectNodes]
      rw [if_neg (by simp; omega), if_neg (by simp)]
      exact hext
    have hnodup : (ConsistentHash.getNodes ch key n).Nodup := by
      rw [hexp]
      exact collectNodes_nodup n _ [] List.nodup_nil
    have hKnd : (ch.nodeToHashes.map (·.1)).Nodup := sortedKeys_nodup inv.keysSorted
    have hsubK : ∀ x ∈ ConsistentHash.getNodes ch key n,
        x ∈ ch.nodeToHashes.map (·.1) := by
      intro x hx
      rw [hexp] at hx
      rcases collectNodes_subset n _ [] x hx with h' | h'
      · simp at h'
      · rcases List.mem_map.mp h' with ⟨a, ha, hax⟩
        have ham : a ∈ ch.ring := (rot_mem _ _ _).mp ha
        obtain ⟨hs', hin, _⟩ := inv.cover a ham
        exact List.mem_map.mpr ⟨(a.2, hs'), hin, by rw [← hax]⟩
    have hsupK : ∀ x ∈ ch.nodeToHashes.map (·.1),
        x ∈ (ch.ring.drop (rotStart ch.ring (fnv key)) ++
          ch.ring.take (rotStart ch.ring (fnv key))).map (·.2) := by
      intro x hx
      rcases List.mem_map.mp hx with ⟨a, ha, hax⟩
      obtain ⟨_, hlen2, _, hpos⟩ := inv.nodes a ha
      have hr := inv.posReplicas
      have hanil : a.2 ≠ [] := by
        intro hc
        rw [hc] at hlen2
        simp at hlen2
        omega
      obtain ⟨p, hp⟩ := List.exists_mem_of_ne_nil a.2 hanil
      exact List.mem_map.mpr
        ⟨(p, a.1), (rot_mem _ _ _).mpr (hpos p hp), by simpa using hax⟩
    have hlen_le : (ConsistentHash.getNodes ch key n).length ≤ n := by
      rw [hexp]
      exact collectNodes_length_le n _ [] (by simp)
    have hcover : (ConsistentHash.getNodes ch key n).length < n →
        ∀ x ∈ ch.nodeToHashes.map (·.1),
          x ∈ ConsistentHash.getNodes ch key n := by
      intro hshort x hx
      rw [hexp] at hshort ⊢
      exact collectNodes_covers n _ [] hshort x (Or.inr (hsupK x hx))
    have hKlen : (ch.nodeToHashes.map (·.1)).length =
        ConsistentHash.getNodeCount ch := by
      simp [ConsistentHash.getNodeCount]
    refine ⟨hnodup, fun _ => ?_, ?_, ?_⟩
    · rw [hres, hgetnode]
      rfl
    · intro hge
      by_contra hne2
      have hlt : (ConsistentHash.getNodes ch key n).length < n := by omega
      have hKsub := hcover hlt
      have hgeK : (ch.nodeToHashes.map (·.1)).length ≤
          (ConsistentHash.getNodes ch key n).length :=
        (List.subperm_of_subset hKnd (fun x hx => hKsub x hx)).length_le
      omega
    · intro hlt2
      have hle : (ConsistentHash.getNodes ch key n).length ≤
          (ch.nodeToHashes.map (·.1)).length :=
        (List.subperm_of_subset hnodup (fun x hx => hsubK x hx)).length_le
      have hlt : (ConsistentHash.getNodes ch key n).length < n := by omega
      have hKsub := hcover hlt
      have hgeK : (ch.nodeToHashes.map (·.1)).length ≤
          (ConsistentHash.getNodes ch key n).length :=
        (List.subperm_of_subset hKnd (fun x hx => hKsub x hx)).length_le
      omega

/-- Witness for C5 at a concrete input: two replicas of the key `"p"` on the
reachable two-node ring `{"a","b"}` (one virtual node each). -/
theorem claim_C5_witness :
    (ConsistentHash.getNodes
        (ConsistentHash.addNode [98] (ConsistentHash.addNode [97] (mkCH 1)))
        [112] 2).Nodup ∧
      ((ConsistentHash.addNode [98] (ConsistentHash.addNode [97] (mkCH 1))).ring
          ≠ [] →
        (ConsistentHash.getNodes
            (ConsistentHash.addNode [98] (ConsistentHash.addNode [97] (mkCH 1)))
            [112] 2).head? =
          some (ConsistentHash.getNode
            (ConsistentHash.addNode [98] (ConsistentHash.addNode [97] (mkCH 1)))
            [112])) ∧
      (2 ≤ ConsistentHash.getNodeCount
          (ConsistentHash.addNode [98] (ConsistentHash.addNode [97] (mkCH 1))) →
        (ConsistentHash.getNodes
            (ConsistentHash.addNode [98] (ConsistentHash.addNode [97] (mkCH 1)))
            [112] 2).length = 2) ∧
      (ConsistentHash.getNodeCount
          (ConsistentHash.addNode [98] (ConsistentHash.addNode [97] (mkCH 1))) < 2 →
        (ConsistentHash.getNodes
            (ConsistentHash.addNode [98] (ConsistentHash.addNode [97] (mkCH 1)))
            [112] 2).length =
          ConsistentHash.getNodeCount
            (ConsistentHash.addNode [98] (ConsistentHash.addNode [97] (mkCH 1)))) :=
  claim_C5 _
    (ReachableCH.add [98]
      (ReachableCH.add [97] (ReachableCH.init 1 Nat.one_pos)
        (by decide) (by decide))
      (by decide) (by decide))
    [112] 2 (by decide)

/-! ### Routing after a removal -/

theorem find?_filter_some {α : Type} (p q : α → Bool) :
    ∀ (l : List α) {e : α}, l.find? p = some e → q e = true →
      (l.filter q).find? p = some e := by
  intro l
  induction l with
  | nil => intro e h _; simp at h
  | cons a rest ih =>
    intro e hf hq
    by_cases hpa : p a
    · rw [List.find?_cons_of_pos _ hpa] at hf
      cases hf
      rw [List.filter_cons, if_pos hq]
      exact List.find?_cons_of_pos _ hpa
    · rw [List.find?_cons_of_neg _ (by simpa using hpa)] at hf
      rw [List.filter_cons]
      by_cases hqa : q a
      · rw [if_pos hqa]
        rw [List.find?_cons_of_neg _ (by simpa using hpa)]
        exact ih hf hq
      · rw [if_neg hqa]
        exact ih hf hq

theorem find?_filter_none {α : Type} (p q : α → Bool) (l : List α)
    (hf : l.find? p = none) : (l.filter q).find? p = none := by
  rw [List.find?_eq_none] at hf ⊢
  intro x hx
  exact hf x ((List.filter_sublist _).subset hx)

theorem routeEntry_filter {l : List (Nat × Str)} (q : Nat × Str → Bool)
    {h : Nat} {e : Nat × Str} (he : routeEntry l h = some e) (hq : q e = true) :
    routeEntry (l.filter q) h = some e := by
  unfold routeEntry at he ⊢
  cases hf : l.find? (fun x => decide (h ≤ x.1)) with
  | some e' =>
    rw [hf] at he
    cases he
    rw [find?_filter_some _ _ _ hf hq]
  | none =>
    rw [hf] at he
    rw [find?_filter_none _ _ _ hf]
    cases l with
    | nil => simp at he
    | cons a tl =>
      simp only [List.head?_cons, Option.some.injEq] at he
      subst he
      rw [List.filter_cons, if_pos hq]
      rfl

theorem getNode_nil {ch : ConsistentHash} (h : ch.ring = []) (key : Str) :
    ConsistentHash.getNode ch key = [] := by
  rw [getNode_def, routeEntry_eq_none.mpr h]
  rfl

theorem ring_nil_iff {ch : ConsistentHash} (inv : InvCH ch) :
    ch.ring = [] ↔ ch.nodeToHashes = [] := by
  have hcnt := inv.count
  have hr := inv.posReplicas
  constructor
  · intro h
    rw [h] at hcnt
    simp only [List.length_nil] at hcnt
    rcases Nat.mul_eq_zero.mp hcnt.symm with h0 | h0
    · omega
    · exact List.length_eq_zero.mp h0
  · intro h
    rw [h] at hcnt
    simp only [List.length_nil, Nat.mul_zero] at hcnt
    exact List.length_eq_zero.mp hcnt

theorem getNode_mem {ch : ConsistentHash} (inv : InvCH ch)
    (hne : ch.ring ≠ []) (key : Str) :
    ConsistentHash.getNode ch key ≠ [] ∧
      ConsistentHash.getNode ch key ∈ ch.nodeToHashes.map (·.1) := by
  rw [getNode_def]
  cases hr : routeEntry ch.ring (fnv key) with
  | none => exact absurd (routeEntry_eq_none.mp hr) hne
  | some e =>
    have hmem : e ∈ ch.ring := routeEntry_mem hr
    obtain ⟨hs, hin, _⟩ := inv.cover e hmem
    obtain ⟨hnne, _, _, _⟩ := inv.nodes _ hin
    exact ⟨hnne, List.mem_map.mpr ⟨(e.2, hs), hin, rfl⟩⟩

theorem getNode_removeNode_ne {ch : ConsistentHash} (inv : InvCH ch)
    (s key : Str) (hne : ConsistentHash.getNode ch key ≠ s) :
    ConsistentHash.getNode (ConsistentHash.removeNode s ch).2 key =
      ConsistentHash.getNode ch key := by
  cases hq : mapFind? s ch.nodeToHashes with
  | none =>
    unfold ConsistentHash.removeNode
    rw [hq]
  | some hs =>
    have hrm : (ConsistentHash.removeNode s ch).2.ring =
        ch.ring.filter (fun e => !(hs.contains e.1)) := by
      simp [ConsistentHash.removeNode, hq, foldl_ringErase_filter]
    rw [getNode_def, getNode_def, hrm]
    cases hr : routeEntry ch.ring (fnv key) with
    | none =>
      have hnil : ch.ring = [] := routeEntry_eq_none.mp hr
      rw [hnil]
      rfl
    | some er =>
      have hgn : ConsistentHash.getNode ch key = er.2 := by
        rw [getNode_def, hr]
        rfl
      have hers : er.2 ≠ s := by
        rw [← hgn]
        exact hne
      have hsurv : (fun e => !(hs.contains e.1)) er = true := by
        cases hc : hs.contains er.1 with
        | false =>
          show (!(hs.contains er.1)) = true
          rw [hc]
          rfl
        | true =>
          have hin : er.1 ∈ hs := (natContains_iff _ _).mp hc
          have hmemidx : (s, hs) ∈ ch.nodeToHashes := mapFind?_eq_some_mem hq
          have h4 := (inv.nodes _ hmemidx).2.2.2 er.1 hin
          have heq := eq_of_nodupKeys (ringSorted_nodup inv.ringSorted)
            (routeEntry_mem hr) h4 rfl
          exact absurd (congrArg Prod.snd heq) hers
      rw [routeEntry_filter _ hr hsurv]

/-! ### The store's bookkeeping helpers -/

theorem updateServerKeys_keys (key sid : Str) :
    ∀ m, (updateServerKeys key sid m).map (·.1) = m.map (·.1) := by
  intro m
  induction m with
  | nil => rfl
  | cons e rest ih =>
    by_cases h : e.1 = sid
    · simp [updateServerKeys, h]
    · simp [updateServerKeys, h, ih]

theorem removeFromServerKeys_keys (key sid : Str) :
    ∀ m, (removeFromServerKeys key sid m).map (·.1) = m.map (·.1) := by
  intro m
  induction m with
  | nil => rfl
  | cons e rest ih =>
    by_cases h : e.1 = sid
    · simp [removeFromServerKeys, h]
    · simp [removeFromServerKeys, h, ih]

theorem eraseFirstOwner_keys (key : Str) :
    ∀ m, (eraseFirstOwner key m).map (·.1) = m.map (·.1) := by
  intro m
  induction m with
  | nil => rfl
  | cons e rest ih =>
    by_cases h : key ∈ e.2
    · simp [eraseFirstOwner, h]
    · simp [eraseFirstOwner, h, ih]

theorem sortedKeys_of_keys_eq {α β : Type} {m1 : List (Str × α)}
    {m2 : List (Str × β)} (h : m1.map (·.1) = m2.map (·.1))
    (hs : SortedKeys m1) : SortedKeys m2 := by
  have h1 : List.Pairwise (fun a b => strLt a b = true) (m1.map (·.1)) :=
    List.pairwise_map.mpr hs
  rw [h] at h1
  exact List.pairwise_map.mp h1

theorem mapErase_keys {α : Type} (name : Str) :
    ∀ m : List (Str × α),
      (mapErase name m).map (·.1) = (m.map (·.1)).filter (fun k => !(k == name)) := by
  intro m
  induction m with
  | nil => rfl
  | cons a rest ih =>
    have ih' : (rest.filter (fun e => !(e.1 == name))).map (·.1) =
        (rest.map (·.1)).filter (fun k => !(k == name)) := by
      simpa [mapErase] using ih
    by_cases h : a.1 = name
    · simp [mapErase, List.filter_cons, h, ih']
    · simp [mapErase, List.filter_cons, h, ih']

theorem mapInsert_keys_congr {α β : Type} (name : Str) (v : α) (w : β) :
    ∀ (m1 : List (Str × α)) (m2 : List (Str × β)),
      m1.map (·.1) = m2.map (·.1) →
      (mapInsert name v m1).map (·.1) = (mapInsert name w m2).map (·.1) := by
  intro m1
  induction m1 with
  | nil =>
    intro m2 h
    cases m2 with
    | nil => rfl
    | cons b r2 => simp at h
  | cons a r1 ih =>
    intro m2 h
    cases m2 with
    | nil => simp at h
    | cons b r2 =>
      simp only [List.map_cons, List.cons.injEq] at h
      obtain ⟨hab, hr⟩ := h
      by_cases h1 : strLt name a.1 = true
      · have h1' : strLt name b.1 = true := by rw [← hab]; exact h1
        simp [mapInsert, h1, h1', hab, hr]
      · have h1' : ¬ strLt name b.1 = true := by rw [← hab]; exact h1
        by_cases h2 : name = a.1
        · have h2' : name = b.1 := by rw [← hab]; exact h2
          simp [mapInsert, h1, h1', h2, h2', hr, hab, strLt_irrefl]
        · have h2' : ¬ name = b.1 := by rw [← hab]; exact h2
          simp [mapInsert, h1, h1', h2, h2', hab, ih r2 hr]

theorem updateServerKeys_mem (key sid : Str) :
    ∀ m e, e ∈ updateServerKeys key sid m →
      e ∈ m ∨ (e.1 = sid ∧ ∃ ks, (sid, ks) ∈ m ∧ key ∉ ks ∧ e.2 = ks ++ [key]) := by
  intro m
  induction m with
  | nil => intro e h; simp [updateServerKeys] at h
  | cons a rest ih =>
    intro e h
    by_cases ha : a.1 = sid
    · simp only [updateServerKeys, if_pos ha] at h
      rcases List.mem_cons.mp h with rfl | h'
      · by_cases hk : key ∈ a.2
        · rw [if_pos hk]
          exact Or.inl (by simp)
        · rw [if_neg hk]
          refine Or.inr ⟨ha, a.2, ?_, hk, by simp [hk]⟩
          rw [← ha]
          simp
      · exact Or.inl (List.mem_cons_of_mem _ h')
    · simp only [updateServerKeys, if_neg ha] at h
      rcases List.mem_cons.mp h with rfl | h'
      · exact Or.inl (List.mem_cons_self _ _)
      · rcases ih e h' with h'' | ⟨h1, ks, h2, h3, h4⟩
        · exact Or.inl (List.mem_cons_of_mem _ h'')
        · exact Or.inr ⟨h1, ks, List.mem_cons_of_mem _ h2, h3, h4⟩

theorem updateServerKeys_mem_of_ne (key sid : Str) :
    ∀ m e, e ∈ m → e.1 ≠ sid → e ∈ updateServerKeys key sid m := by
  intro m
  induction m with
  | nil => intro e h; simp at h
  | cons a rest ih =>
    intro e he hne
    by_cases ha : a.1 = sid
    · simp only [updateServerKeys, if_pos ha]
      rcases List.mem_cons.mp he with rfl | h'
      · exact absurd ha hne
      · exact List.mem_cons_of_mem _ h'
    · simp only [updateServerKeys, if_neg ha]
      rcases List.mem_cons.mp he with rfl | h'
      · exact List.mem_cons_self _ _
      · exact List.mem_cons_of_mem _ (ih e h' hne)

theorem updateServerKeys_sub (key sid : Str) :
    ∀ m e (k' : Str), e ∈ m → k' ∈ e.2 →
      ∃ e' ∈ updateServerKeys key sid m, e'.1 = e.1 ∧ k' ∈ e'.2 := by
  intro m
  induction m with
  | nil => intro e k' h; simp at h
  | cons a rest ih =>
    intro e k' he hk
    by_cases ha : a.1 = sid
    · simp only [updateServerKeys, if_pos ha]
      rcases List.mem_cons.mp he with rfl | h'
      · refine ⟨(e.1, if key ∈ e.2 then e.2 else e.2 ++ [key]),
          List.mem_cons_self _ _, rfl, ?_⟩
        by_cases hkk : key ∈ e.2
        · rw [if_pos hkk]; exact hk
        · rw [if_neg hkk]; exact List.mem_append.mpr (Or.inl hk)
      · exact ⟨e, List.mem_cons_of_mem _ h', rfl, hk⟩
    · simp only [updateServerKeys, if_neg ha]
      rcases List.mem_cons.mp he with rfl | h'
      · exact ⟨e, List.mem_cons_self _ _, rfl, hk⟩
      · obtain ⟨e', he', h1, h2⟩ := ih e k' h' hk
        exact ⟨e', List.mem_cons_of_mem _ he', h1, h2⟩

theorem updateServerKeys_self (key sid : Str) :
    ∀ m ks, (m.map (·.1)).Nodup → (sid, ks) ∈ m →
      ∃ L, (sid, L) ∈ updateServerKeys key sid m ∧ key ∈ L ∧ ∀ x ∈ ks, x ∈ L := by
  intro m
  induction m with
  | nil => intro ks _ h; simp at h
  | cons a rest ih =>
    intro ks hnd hm
    rw [List.map_cons, List.nodup_cons] at hnd
    obtain ⟨hhead, htail⟩ := hnd
    by_cases ha : a.1 = sid
    · rcases List.mem_cons.mp hm with h | h
      · refine ⟨if key ∈ a.2 then a.2 else a.2 ++ [key], ?_, ?_, ?_⟩
        · simp only [updateServerKeys, if_pos ha]
          rw [← ha]
          exact List.mem_cons_self _ _
        · by_cases hkk : key ∈ a.2
          · rw [if_pos hkk]; exact hkk
          · rw [if_neg hkk]; exact List.mem_append.mpr (Or.inr (by simp))
        · intro x hx
          have : ks = a.2 := by rw [← h]
          rw [this] at hx
          by_cases hkk : key ∈ a.2
          · rw [if_pos hkk]; exact hx
          · rw [if_neg hkk]; exact List.mem_append.mpr (Or.inl hx)
      · exact absurd (ha ▸ List.mem_map.mpr ⟨(sid, ks), h, rfl⟩) hhead
    · rcases List.mem_cons.mp hm with h | h
      · exact absurd (congrArg Prod.fst h.symm) ha
      · obtain ⟨L, h1, h2, h3⟩ := ih ks htail h
        refine ⟨L, ?_, h2, h3⟩
        simp only [updateServerKeys, if_neg ha]
        exact List.mem_cons_of_mem _ h1

theorem removeFromServerKeys_mem (key sid : Str) :
    ∀ m, (m.map (·.1)).Nodup → ∀ e, e ∈ removeFromServerKeys key sid m →
      (e ∈ m ∧ e.1 ≠ sid) ∨
        (e.1 = sid ∧ ∃ ks, (sid, ks) ∈ m ∧
          e.2 = ks.filter (fun k => !(k == key))) := by
  intro m
  induction m with
  | nil => intro _ e h; simp [removeFromServerKeys] at h
  | cons a rest ih =>
    intro hnd e h
    rw [List.map_cons, List.nodup_cons] at hnd
    obtain ⟨hhead, htail⟩ := hnd
    by_cases ha : a.1 = sid
    · simp only [removeFromServerKeys, if_pos ha] at h
      rcases List.mem_cons.mp h with rfl | h'
      · refine Or.inr ⟨ha, a.2, ?_, rfl⟩
        rw [← ha]
        simp
      · refine Or.inl ⟨List.mem_cons_of_mem _ h', ?_⟩
        intro hc
        exact hhead (ha ▸ hc ▸ List.mem_map.mpr ⟨e, h', rfl⟩)
    · simp only [removeFromServerKeys, if_neg ha] at h
      rcases List.mem_cons.mp h with rfl | h'
      · exact Or.inl ⟨List.mem_cons_self _ _, ha⟩
      · rcases ih htail e h' with ⟨h1, h2⟩ | ⟨h1, ks, h2, h3⟩
        · exact Or.inl ⟨List.mem_cons_of_mem _ h1, h2⟩
        · exact Or.inr ⟨h1, ks, List.mem_cons_of_mem _ h2, h3⟩

theorem removeFromServerKeys_mem_of_ne (key sid : Str) :
    ∀ m e, e ∈ m → e.1 ≠ sid → e ∈ removeFromServerKeys key sid m := by
  intro m
  induction m with
  | nil => intro e h; simp at h
  | cons a rest ih =>
    intro e he hne
    by_cases ha : a.1 = sid
    · simp only [removeFromServerKeys, if_pos ha]
      rcases List.mem_cons.mp he with rfl | h'
      · exact absurd ha hne
      · exact List.mem_cons_of_mem _ h'
    · simp only [removeFromServerKeys, if_neg ha]
      rcases List.mem_cons.mp he with rfl | h'
      · exact List.mem_cons_self _ _
      · exact List.mem_cons_of_mem _ (ih e h' hne)

theorem removeFromServerKeys_self (key sid : Str) :
    ∀ m ks, (m.map (·.1)).Nodup → (sid, ks) ∈ m →
      (sid, ks.filter (fun k => !(k == key))) ∈
        removeFromServerKeys key sid m := by
  intro m
  induction m with
  | nil => intro ks _ h; simp at h
  | cons a rest ih =>
    intro ks hnd hm
    rw [List.map_cons, List.nodup_cons] at hnd
    obtain ⟨hhead, htail⟩ := hnd
    by_cases ha : a.1 = sid
    · rcases List.mem_cons.mp hm with h | h
      · simp only [removeFromServerKeys, if_pos ha]
        rw [← h]
        exact List.mem_cons_self _ _
      · exact absurd (ha ▸ List.mem_map.mpr ⟨(sid, ks), h, rfl⟩) hhead
    · rcases List.mem_cons.mp hm with h | h
      · exact absurd (congrArg Prod.fst h.symm) ha
      · simp only [removeFromServerKeys, if_neg ha]
        exact List.mem_cons_of_mem _ (ih ks htail h)

theorem eraseFirstOwner_mem (key : Str) :
    ∀ m e, e ∈ eraseFirstOwner key m →
      e ∈ m ∨ ∃ e₀ ∈ m, key ∈ e₀.2 ∧ e = (e₀.1, e₀.2.erase key) := by
  intro m
  induction m with
  | nil => intro e h; simp [eraseFirstOwner] at h
  | cons a rest ih =>
    intro e h
    by_cases ha : a.2.contains key
    · simp only [eraseFirstOwner, if_pos ha] at h
      rcases List.mem_cons.mp h with rfl | h'
      · exact Or.inr ⟨a, List.mem_cons_self _ _,
          (strContains_iff _ _).mp ha, rfl⟩
      · exact Or.inl (List.mem_cons_of_mem _ h')
    · simp only [eraseFirstOwner, if_neg ha] at h
      rcases List.mem_cons.mp h with rfl | h'
      · exact Or.inl (List.mem_cons_self _ _)
      · rcases ih e h' with h'' | ⟨e₀, h1, h2, h3⟩
        · exact Or.inl (List.mem_cons_of_mem _ h'')
        · exact Or.inr ⟨e₀, List.mem_cons_of_mem _ h1, h2, h3⟩

theorem eraseFirstOwner_keep (key : Str) :
    ∀ m e (k' : Str), e ∈ m → k' ∈ e.2 → k' ≠ key →
      ∃ e' ∈ eraseFirstOwner key m, e'.1 = e.1 ∧ k' ∈ e'.2 := by
  intro m
  induction m with
  | nil => intro e k' h; simp at h
  | cons a rest ih =>
    intro e k' he hk hne
    by_cases ha : a.2.contains key
    · simp only [eraseFirstOwner, if_pos ha]
      rcases List.mem_cons.mp he with rfl | h'
      · exact ⟨(e.1, e.2.erase key), List.mem_cons_self _ _, rfl,
          (List.mem_erase_of_ne hne).mpr hk⟩
      · exact ⟨e, List.mem_cons_of_mem _ h', rfl, hk⟩
    · simp only [eraseFirstOwner, if_neg ha]
      rcases List.mem_cons.mp he with rfl | h'
      · exact ⟨e, List.mem_cons_self _ _, rfl, hk⟩
      · obtain ⟨e', h1, h2, h3⟩ := ih e k' h' hk hne
        exact ⟨e', List.mem_cons_of_mem _ h1, h2, h3⟩

theorem eraseFirstOwner_gone (key : Str) :
    ∀ m, (m.map (·.1)).Nodup → (∀ e ∈ m, e.2.Nodup) →
      (∀ e1 ∈ m, ∀ e2 ∈ m, key ∈ e1.2 → key ∈ e2.2 → e1 = e2) →
      ∀ e ∈ eraseFirstOwner key m, key ∉ e.2 := by
  intro m
  induction m with
  | nil => intro _ _ _ e h; simp [eraseFirstOwner] at h
  | cons a rest ih =>
    intro hnd hlnd huniq e he
    rw [List.map_cons, List.nodup_cons] at hnd
    obtain ⟨hhead, htail⟩ := hnd
    by_cases ha : a.2.contains key
    · simp only [eraseFirstOwner, if_pos ha] at he
      rcases List.mem_cons.mp he with rfl | h'
      · intro hc
        have hand := hlnd a (List.mem_cons_self _ _)
        exact ((hand.mem_erase_iff).mp hc).1 rfl
      · intro hc
        have heq := huniq e (List.mem_cons_of_mem _ h') a
          (List.mem_cons_self _ _) hc ((strContains_iff _ _).mp ha)
        rw [heq] at h'
        exact hhead (List.mem_map.mpr ⟨a, h', rfl⟩)
    · simp only [eraseFirstOwner, if_neg ha] at he
      rcases List.mem_cons.mp he with rfl | h'
      · intro hc
        exact ha ((strContains_iff _ _).mpr hc)
      · exact ih htail (fun x hx => hlnd x (List.mem_cons_of_mem _ hx))
          (fun e1 h1 e2 h2 => huniq e1 (List.mem_cons_of_mem _ h1) e2
            (List.mem_cons_of_mem _ h2)) e h'

/-! ### The reassignment loop of `removeServer` -/

theorem reassignStep_inv {data : List (Str × Str)} {ring2 : ConsistentHash}
    {m : List (Str × List Str)} (hIA : ReassignInv data ring2 m) (key : Str) :
    ReassignInv data ring2 (reassignStep data ring2 m key) := by
  obtain ⟨hsort, hkeys, htrack⟩ := hIA
  unfold reassignStep
  by_cases hd : (mapFind? key data).isSome = true
  · rw [if_pos hd]
    by_cases hns : (ConsistentHash.getNode ring2 key).isEmpty = true
    · rw [if_pos hns]
      exact ⟨hsort, hkeys, htrack⟩
    · rw [if_neg hns]
      refine ⟨?_, ?_, ?_⟩
      · exact sortedKeys_of_keys_eq (updateServerKeys_keys _ _ m).symm hsort
      · rw [updateServerKeys_keys, hkeys]
      · intro e he
        rcases updateServerKeys_mem _ _ m e he with h | ⟨h1, ks', h2, h3, h4⟩
        · exact htrack e h
        · obtain ⟨hnd', hold⟩ := htrack _ h2
          constructor
          · rw [h4]
            simp [List.nodup_append, hnd', h3]
          · intro k hk
            rw [h4] at hk
            rcases List.mem_append.mp hk with hk' | hk'
            · obtain ⟨hv, hroute⟩ := hold k hk'
              exact ⟨hv, by rw [hroute, h1]⟩
            · rw [List.mem_singleton.mp hk']
              obtain ⟨v, hv⟩ := Option.isSome_iff_exists.mp hd
              exact ⟨⟨v, mapFind?_eq_some_mem hv⟩, by rw [h1]⟩
  · rw [if_neg hd]
    exact ⟨hsort, hkeys, htrack⟩

theorem reassign_inv {data : List (Str × Str)} {ring2 : ConsistentHash} :
    ∀ (keys : List Str) (m : List (Str × List Str)),
      ReassignInv data ring2 m →
      ReassignInv data ring2 (keys.foldl (reassignStep data ring2) m) := by
  intro keys
  induction keys with
  | nil => intro m h; exact h
  | cons k ks ih =>
    intro m h
    exact ih _ (reassignStep_inv h k)

theorem reassign_grow {data : List (Str × Str)} {ring2 : ConsistentHash} :
    ∀ (keys : List Str) (m : List (Str × List Str)) (e : Str × List Str)
      (k' : Str), e ∈ m → k' ∈ e.2 →
      ∃ e' ∈ keys.foldl (reassignStep data ring2) m, e'.1 = e.1 ∧ k' ∈ e'.2 := by
  intro keys
  induction keys with
  | nil => intro m e k' he hk; exact ⟨e, he, rfl, hk⟩
  | cons k ks ih =>
    intro m e k' he hk
    simp only [List.foldl_cons]
    have hstep : ∃ e'' ∈ reassignStep data ring2 m k, e''.1 = e.1 ∧ k' ∈ e''.2 := by
      unfold reassignStep
      by_cases hd : (mapFind? k data).isSome = true
      · rw [if_pos hd]
        by_cases hns : (ConsistentHash.getNode ring2 k).isEmpty = true
        · rw [if_pos hns]
          exact ⟨e, he, rfl, hk⟩
        · rw [if_neg hns]
          exact updateServerKeys_sub _ _ m e k' he hk
      · rw [if_neg hd]
        exact ⟨e, he, rfl, hk⟩
    obtain ⟨e'', he'', h1, h2⟩ := hstep
    obtain ⟨e', he', h1', h2'⟩ := ih _ e'' k' he'' h2
    exact ⟨e', he', by rw [h1', h1], h2'⟩

theorem reassign_covers {data : List (Str × Str)} {ring2 : ConsistentHash}
    (inv2 : InvCH ring2) (hne : ring2.ring ≠ []) :
    ∀ (keys : List Str) (m : List (Str × List Str)),
      ReassignInv data ring2 m →
      ∀ k ∈ keys, (mapFind? k data).isSome = true →
        ∃ e' ∈ keys.foldl (reassignStep data ring2) m,
          e'.1 = ConsistentHash.getNode ring2 k ∧ k ∈ e'.2 := by
  intro keys
  induction keys with
  | nil => intro m _ k hk; simp at hk
  | cons k0 ks ih =>
    intro m hIA k hk hd
    simp only [List.foldl_cons]
    rcases List.mem_cons.mp hk with rfl | hk'
    · -- this key is processed right now, then its entry only grows
      have hnsne : ConsistentHash.getNode ring2 k ≠ [] :=
        (getNode_mem inv2 hne k).1
      have hnsmem : ConsistentHash.getNode ring2 k ∈ m.map (·.1) := by
        rw [hIA.2.1]
        exact (getNode_mem inv2 hne k).2
      obtain ⟨e0, he0, he0k⟩ := List.mem_map.mp hnsmem
      have he0m : (ConsistentHash.getNode ring2 k, e0.2) ∈ m := by
        rw [← he0k]
        simpa using he0
      have hknd : (m.map (·.1)).Nodup := sortedKeys_nodup hIA.1
      obtain ⟨L, hL, hkL, _⟩ :=
        updateServerKeys_self k (ConsistentHash.getNode ring2 k) m e0.2 hknd he0m
      have hstepped : reassignStep data ring2 m k =
          updateServerKeys k (ConsistentHash.getNode ring2 k) m := by
        unfold reassignStep
        rw [if_pos hd]
        rw [if_neg (by cases hc : ConsistentHash.getNode ring2 k with
          | nil => exact absurd hc hnsne
          | cons a tl => simp [hc])]
      rw [hstepped]
      obtain ⟨e', he', h1, h2⟩ := reassign_grow ks _ _ k hL hkL
      exact ⟨e', he', by rw [h1], h2⟩
    · exact ih _ (reassignStep_inv hIA k0) k hk' hd

/-! ### The store invariant is preserved by every restricted operation -/

theorem invCH_clear {ch : ConsistentHash} (inv : InvCH ch) :
    InvCH (ConsistentHash.clear ch) :=
  ⟨inv.posReplicas, by simp [ConsistentHash.clear], by simp [ConsistentHash.clear],
    by simp [ConsistentHash.clear], by simp [ConsistentHash.clear],
    by simp [ConsistentHash.clear]⟩

theorem storeInv_init (r : Nat) (hr : 0 < r) : StoreInv (mkKV r) := by
  refine ⟨invCH_of_reachable (ReachableCH.init r hr), ?_, ?_, ?_, ?_, ?_⟩ <;>
    simp [mkKV, mkCH]

theorem storeInv_clear {st : KeyValueStore} (inv : StoreInv st) :
    StoreInv (KeyValueStore.clear st) := by
  refine ⟨invCH_clear inv.ringInv, ?_, ?_, ?_, ?_, ?_⟩ <;>
    simp [KeyValueStore.clear, ConsistentHash.clear]

theorem storeInv_addServer {st : KeyValueStore} (sid : Str) (inv : StoreInv st)
    (hn : sid ≠ [])
    (hlen : st.hashRing.ring.length + st.hashRing.virtualNodesPerNode ≤ U32)
    (hdata : st.data = []) : StoreInv (KeyValueStore.addServer sid st).2 := by
  unfold KeyValueStore.addServer
  by_cases hp : (mapFind? sid st.serverKeys).isSome = true
  · simpa [hp] using inv
  · simp only [Bool.not_eq_true] at hp
    simp only [hp, Bool.false_eq_true, if_false]
    have hpn : mapFind? sid st.serverKeys = none := by
      cases hq : mapFind? sid st.serverKeys
      · rfl
      · rw [hq] at hp
        simp at hp
    have hfresh : ∀ a ∈ st.serverKeys, a.1 ≠ sid :=
      (mapFind?_eq_none_iff _ _).mp hpn
    have hifresh : ∀ a ∈ st.hashRing.nodeToHashes, a.1 ≠ sid := by
      intro a ha
      have : a.1 ∈ st.serverKeys.map (·.1) := by
        rw [inv.keysEq]
        exact List.mem_map.mpr ⟨a, ha, rfl⟩
      obtain ⟨b, hb, hbk⟩ := List.mem_map.mp this
      rw [← hbk]
      exact hfresh b hb
    have hidxnone : mapFind? sid st.hashRing.nodeToHashes = none :=
      (mapFind?_eq_none_iff _ _).mpr hifresh
    have haddeq : ConsistentHash.addNode sid st.hashRing =
        { st.hashRing with
          ring := (addVirtualsFrom sid 0 st.hashRing.virtualNodesPerNode
            (st.hashRing.ring, [])).1,
          nodeToHashes :=
            mapInsert sid (addVirtualsFrom sid 0 st.hashRing.virtualNodesPerNode
              (st.hashRing.ring, [])).2 st.hashRing.nodeToHashes } := by
      simp [ConsistentHash.addNode, hidxnone]
    refine ⟨invCH_addNode sid inv.ringInv hn hlen, inv.dataSorted,
      mapInsert_sorted _ _ _ inv.skSorted, ?_, ?_, ?_⟩
    · rw [haddeq]
      exact mapInsert_keys_congr sid _ _ _ _ inv.keysEq
    · intro e he
      rcases mem_mapInsert _ _ _ he with rfl | he'
      · exact ⟨List.nodup_nil, by intro k hk; simp at hk⟩
      · obtain ⟨hnd', hold⟩ := inv.tracked e he'
        refine ⟨hnd', ?_⟩
        intro k hk
        obtain ⟨⟨v, hv⟩, _⟩ := hold k hk
        rw [hdata] at hv
        simp at hv
    · intro _ kv hkv
      rw [hdata] at hkv
      simp at hkv

theorem storeInv_set {st : KeyValueStore} (key value : Str)
    (inv : StoreInv st) : StoreInv (KeyValueStore.set key value st).2 := by
  by_cases hke : key.isEmpty = true
  · have : KeyValueStore.set key value st = (false, st) := by
      simp [KeyValueStore.set, hke]
    rw [this]
    exact inv
  by_cases hn0 : (st.hashRing.getNodeCount == 0) = true
  · have : KeyValueStore.set key value st = (false, st) := by
      simp [KeyValueStore.set, hke, hn0]
    rw [this]
    exact inv
  have hidxne : st.hashRing.nodeToHashes ≠ [] := by
    intro hc
    simp [ConsistentHash.getNodeCount, hc] at hn0
  have hringne : st.hashRing.ring ≠ [] := fun hc =>
    hidxne ((ring_nil_iff inv.ringInv).mp hc)
  have hsid := getNode_mem inv.ringInv hringne key
  have hsidne : ¬ (ConsistentHash.getNode st.hashRing key).isEmpty = true := by
    cases hc : ConsistentHash.getNode st.hashRing key with
    | nil => exact absurd hc hsid.1
    | cons a tl => simp [hc]
  have hseteq : (KeyValueStore.set key value st).2 =
      { st with
        data := mapInsert key value st.data,
        serverKeys := updateServerKeys key (ConsistentHash.getNode st.hashRing key)
          (if (mapFind? key st.data).isSome then eraseFirstOwner key st.serverKeys
           else st.serverKeys) } := by
    simp [KeyValueStore.set, hke, hn0, hsidne]
  rw [hseteq]
  have hkeysnd : (st.serverKeys.map (·.1)).Nodup := sortedKeys_nodup inv.skSorted
  have hm1keys : (if (mapFind? key st.data).isSome then
      eraseFirstOwner key st.serverKeys else st.serverKeys).map (·.1) =
      st.serverKeys.map (·.1) := by
    by_cases hex : (mapFind? key st.data).isSome = true
    · rw [if_pos hex]
      exact eraseFirstOwner_keys key _
    · rw [if_neg hex]
  have hm1sorted : SortedKeys (if (mapFind? key st.data).isSome then
      eraseFirstOwner key st.serverKeys else st.serverKeys) :=
    sortedKeys_of_keys_eq hm1keys.symm inv.skSorted
  have hm1gone : ∀ e ∈ (if (mapFind? key st.data).isSome then
      eraseFirstOwner key st.serverKeys else st.serverKeys), key ∉ e.2 := by
    by_cases hex : (mapFind? key st.data).isSome = true
    · rw [if_pos hex]
      refine eraseFirstOwner_gone key st.serverKeys hkeysnd
        (fun e he => (inv.tracked e he).1) ?_
      intro e1 h1 e2 h2 hk1 hk2
      have r1 := ((inv.tracked e1 h1).2 key hk1).2
      have r2 := ((inv.tracked e2 h2).2 key hk2).2
      exact eq_of_nodupKeys hkeysnd h1 h2 (r1.symm.trans r2)
    · rw [if_neg hex]
      intro e he hc
      obtain ⟨⟨v, hv⟩, _⟩ := (inv.tracked e he).2 key hc
      exact hex (by rw [mem_mapFind? (sortedKeys_nodup inv.dataSorted) hv]; rfl)
  have hm1track : ∀ e ∈ (if (mapFind? key st.data).isSome then
      eraseFirstOwner key st.serverKeys else st.serverKeys), e.2.Nodup ∧
      ∀ k ∈ e.2, (∃ v, (k, v) ∈ st.data) ∧
        ConsistentHash.getNode st.hashRing k = e.1 := by
    by_cases hex : (mapFind? key st.data).isSome = true
    · rw [if_pos hex]
      intro e he
      rcases eraseFirstOwner_mem key _ e he with h | ⟨e₀, h1, h2, h3⟩
      · exact inv.tracked e h
      · obtain ⟨hnd0, hold⟩ := inv.tracked e₀ h1
        constructor
        · rw [h3]
          exact hnd0.erase _
        · intro k hk
          rw [h3] at hk
          have hk' : k ∈ e₀.2 := (List.erase_subset _ _) hk
          obtain ⟨hv, hroute⟩ := hold k hk'
          exact ⟨hv, by rw [h3]; exact hroute⟩
    · rw [if_neg hex]
      exact inv.tracked
  have hsidm1 : ConsistentHash.getNode st.hashRing key ∈
      (if (mapFind? key st.data).isSome then eraseFirstOwner key st.serverKeys
       else st.serverKeys).map (·.1) := by
    rw [hm1keys, inv.keysEq]
    exact hsid.2
  obtain ⟨e0, he0, he0k⟩ := List.mem_map.mp hsidm1
  have he0m : (ConsistentHash.getNode st.hashRing key, e0.2) ∈
      (if (mapFind? key st.data).isSome then eraseFirstOwner key st.serverKeys
       else st.serverKeys) := by
    rw [← he0k]
    simpa using he0
  have hm1nd : ((if (mapFind? key st.data).isSome then
      eraseFirstOwner key st.serverKeys else st.serverKeys).map (·.1)).Nodup := by
    rw [hm1keys]
    exact hkeysnd
  obtain ⟨L, hL, hkeyL, _⟩ := updateServerKeys_self key
    (ConsistentHash.getNode st.hashRing key) _ e0.2 hm1nd he0m
  refine ⟨inv.ringInv, mapInsert_sorted _ _ _ inv.dataSorted,
    sortedKeys_of_keys_eq (updateServerKeys_keys _ _ _).symm hm1sorted, ?_, ?_, ?_⟩
  · rw [updateServerKeys_keys, hm1keys, inv.keysEq]
  · intro e he
    rcases updateServerKeys_mem _ _ _ e he with h | ⟨h1, ks', h2, h3, h4⟩
    · obtain ⟨hnd', hold⟩ := hm1track e h
      refine ⟨hnd', ?_⟩
      intro k hk
      obtain ⟨⟨v, hv⟩, hroute⟩ := hold k hk
      have hkne : (k, v).1 ≠ key := fun hc => hm1gone e h (hc ▸ hk)
      exact ⟨⟨v, mem_mapInsert_of_mem _ _ _ hv hkne⟩, hroute⟩
    · obtain ⟨hnd', hold⟩ := hm1track _ h2
      refine ⟨?_, ?_⟩
      · rw [h4]
        simp [List.nodup_append, hnd', h3]
      · intro k hk
        rw [h4] at hk
        rcases List.mem_append.mp hk with hk' | hk'
        · obtain ⟨⟨v, hv⟩, hroute⟩ := hold k hk'
          have hkne : (k, v).1 ≠ key := fun hc => hm1gone _ h2 (hc ▸ hk')
          exact ⟨⟨v, mem_mapInsert_of_mem _ _ _ hv hkne⟩, by rw [hroute, h1]⟩
        · rw [List.mem_singleton.mp hk']
          exact ⟨⟨value, mem_mapInsert_self _ _ _⟩, by rw [h1]⟩
  · intro _ kv hkv
    by_cases hkk : kv.1 = key
    · exact ⟨L, hkk ▸ hL, hkk ▸ hkeyL⟩
    · have hkv' : kv ∈ st.data := by
        rcases mem_mapInsert _ _ _ hkv with rfl | h'
        · exact absurd rfl hkk
        · exact h'
      obtain ⟨ks0, hks0, hkin⟩ := inv.owned hringne kv hkv'
      have hkeep : ∃ e' ∈ (if (mapFind? key st.data).isSome then
          eraseFirstOwner key st.serverKeys else st.serverKeys),
          e'.1 = ConsistentHash.getNode st.hashRing kv.1 ∧ kv.1 ∈ e'.2 := by
        by_cases hex : (mapFind? key st.data).isSome = true
        · rw [if_pos hex]
          obtain ⟨e', h1, h2, h3⟩ := eraseFirstOwner_keep key st.serverKeys
            (ConsistentHash.getNode st.hashRing kv.1, ks0) kv.1 hks0 hkin hkk
          exact ⟨e', h1, h2, h3⟩
        · rw [if_neg hex]
          exact ⟨_, hks0, rfl, hkin⟩
      obtain ⟨e', h1, h2, h3⟩ := hkeep
      obtain ⟨e'', h1', h2', h3'⟩ := updateServerKeys_sub key
        (ConsistentHash.getNode st.hashRing key) _ e' kv.1 h1 h3
      refine ⟨e''.2, ?_, h3'⟩
      rw [← h2, ← h2']
      simpa using h1'

theorem storeInv_remove {st : KeyValueStore} (key : Str) (inv : StoreInv st) :
    StoreInv (KeyValueStore.remove key st).2 := by
  by_cases hex : (mapFind? key st.data).isSome = true
  · have hremeq : (KeyValueStore.remove key st).2 =
        { st with
          data := mapErase key st.data,
          serverKeys := if (ConsistentHash.getNode st.hashRing key).isEmpty
            then st.serverKeys
            else removeFromServerKeys key
              (ConsistentHash.getNode st.hashRing key) st.serverKeys } := by
      simp [KeyValueStore.remove, hex]
    rw [hremeq]
    by_cases hse : (ConsistentHash.getNode st.hashRing key).isEmpty = true
    · have hsnil : ConsistentHash.getNode st.hashRing key = [] := by
        cases hc : ConsistentHash.getNode st.hashRing key with
        | nil => rfl
        | cons a tl => rw [hc] at hse; simp at hse
      have hringnil : st.hashRing.ring = [] := by
        by_contra hc
        exact (getNode_mem inv.ringInv hc key).1 hsnil
      have hsknil : st.serverKeys = [] := by
        have hi := (ring_nil_iff inv.ringInv).mp hringnil
        have hk := inv.keysEq
        rw [hi] at hk
        simp at hk
        exact hk
      rw [if_pos hse]
      refine ⟨inv.ringInv, mapErase_sorted _ inv.dataSorted, inv.skSorted,
        inv.keysEq, ?_, ?_⟩
      · rw [hsknil]
        intro e he
        simp at he
      · intro hne _ _
        exact absurd hringnil hne
    · rw [if_neg hse]
      have hsne : ConsistentHash.getNode st.hashRing key ≠ [] := by
        intro hc
        rw [hc] at hse
        exact hse rfl
      have hringne : st.hashRing.ring ≠ [] := by
        intro hc
        exact hsne (getNode_nil hc key)
      have hkeysnd : (st.serverKeys.map (·.1)).Nodup :=
        sortedKeys_nodup inv.skSorted
      refine ⟨inv.ringInv, mapErase_sorted _ inv.dataSorted,
        sortedKeys_of_keys_eq (removeFromServerKeys_keys _ _ _).symm inv.skSorted,
        ?_, ?_, ?_⟩
      · rw [removeFromServerKeys_keys]
        exact inv.keysEq
      · intro e he
        rcases removeFromServerKeys_mem key _ st.serverKeys hkeysnd e he with
          ⟨h1, h2⟩ | ⟨h1, ks, h2, h3⟩
        · obtain ⟨hnd', hold⟩ := inv.tracked e h1
          refine ⟨hnd', ?_⟩
          intro k hk
          obtain ⟨⟨v, hv⟩, hroute⟩ := hold k hk
          have hkne : (k, v).1 ≠ key := by
            intro hc
            simp only at hc
            subst hc
            exact h2 hroute.symm
          exact ⟨⟨v, (mem_mapErase _ _ _).mpr ⟨hv, hkne⟩⟩, hroute⟩
        · obtain ⟨hnd', hold⟩ := inv.tracked _ h2
          refine ⟨by rw [h3]; exact hnd'.sublist (List.filter_sublist _), ?_⟩
          intro k hk
          rw [h3] at hk
          obtain ⟨hk', hkb⟩ := List.mem_filter.mp hk
          have hkne : k ≠ key := by simpa using hkb
          obtain ⟨⟨v, hv⟩, hroute⟩ := hold k hk'
          exact ⟨⟨v, (mem_mapErase _ _ _).mpr ⟨hv, hkne⟩⟩, by rw [hroute, h1]⟩
      · intro _ kv hkv
        rw [mem_mapErase] at hkv
        obtain ⟨hkv', hkne⟩ := hkv
        obtain ⟨ks0, hks0, hkin⟩ := inv.owned hringne kv hkv'
        by_cases hts : ConsistentHash.getNode st.hashRing kv.1 =
            ConsistentHash.getNode st.hashRing key
        · have hself := removeFromServerKeys_self key
            (ConsistentHash.getNode st.hashRing key) st.serverKeys ks0 hkeysnd
            (hts ▸ hks0)
          refine ⟨ks0.filter (fun k => !(k == key)), ?_, ?_⟩
          · rw [hts]
            exact hself
          · exact List.mem_filter.mpr ⟨hkin, by simpa using hkne⟩
        · exact ⟨ks0, removeFromServerKeys_mem_of_ne key _ _ _ hks0 hts, hkin⟩
  · have : KeyValueStore.remove key st = (false, st) := by
      simp [KeyValueStore.remove, hex]
    rw [this]
    exact inv

theorem storeInv_removeServer {st : KeyValueStore} (sid : Str)
    (inv : StoreInv st) : StoreInv (KeyValueStore.removeServer sid st).2 := by
  cases hq : mapFind? sid st.serverKeys with
  | none =>
    unfold KeyValueStore.removeServer
    rw [hq]
    exact inv
  | some ks =>
    have hremeq : (KeyValueStore.removeServer sid st).2 =
        { st with
          hashRing := (st.hashRing.removeNode sid).2,
          serverKeys := ks.foldl
            (reassignStep st.data (st.hashRing.removeNode sid).2)
            (mapErase sid st.serverKeys) } := by
      simp [KeyValueStore.removeServer, hq]
    rw [hremeq]
    have inv2 : InvCH (st.hashRing.removeNode sid).2 :=
      invCH_removeNode sid inv.ringInv
    have hkeysnd : (st.serverKeys.map (·.1)).Nodup :=
      sortedKeys_nodup inv.skSorted
    have hsksid : (sid, ks) ∈ st.serverKeys := mapFind?_eq_some_mem hq
    have hidxne : st.hashRing.nodeToHashes ≠ [] := by
      intro hc
      have hk := inv.keysEq
      rw [hc] at hk
      simp at hk
      rw [hk] at hsksid
      simp at hsksid
    have hringne : st.hashRing.ring ≠ [] := fun hc =>
      hidxne ((ring_nil_iff inv.ringInv).mp hc)
    have hsididx : ∃ hsx, mapFind? sid st.hashRing.nodeToHashes = some hsx := by
      have hmem : sid ∈ st.hashRing.nodeToHashes.map (·.1) := by
        rw [← inv.keysEq]
        exact List.mem_map.mpr ⟨(sid, ks), hsksid, rfl⟩
      obtain ⟨a, ha, hak⟩ := List.mem_map.mp hmem
      refine ⟨a.2, mem_mapFind? (sortedKeys_nodup inv.ringInv.keysSorted) ?_⟩
      rw [← hak]
      simpa using ha
    obtain ⟨hsx, hq2⟩ := hsididx
    have hring2idx : (st.hashRing.removeNode sid).2.nodeToHashes =
        mapErase sid st.hashRing.nodeToHashes := by
      simp [ConsistentHash.removeNode, hq2]
    have hkeys0 : (mapErase sid st.serverKeys).map (·.1) =
        (st.hashRing.removeNode sid).2.nodeToHashes.map (·.1) := by
      rw [hring2idx, mapErase_keys, mapErase_keys, inv.keysEq]
    have hIA0 : ReassignInv st.data (st.hashRing.removeNode sid).2
        (mapErase sid st.serverKeys) := by
      refine ⟨mapErase_sorted _ inv.skSorted, hkeys0, ?_⟩
      intro e he
      rw [mem_mapErase] at he
      obtain ⟨he', hene⟩ := he
      obtain ⟨hnd', hold⟩ := inv.tracked e he'
      refine ⟨hnd', ?_⟩
      intro k hk
      obtain ⟨hv, hroute⟩ := hold k hk
      refine ⟨hv, ?_⟩
      rw [getNode_removeNode_ne inv.ringInv sid k (by rw [hroute]; exact hene)]
      exact hroute
    have hIAfinal := reassign_inv ks _ hIA0
    refine ⟨inv2, inv.dataSorted, hIAfinal.1, hIAfinal.2.1, hIAfinal.2.2, ?_⟩
    intro hne2 kv hkv
    obtain ⟨ks0, hks0, hkin⟩ := inv.owned hringne kv hkv
    by_cases hts : ConsistentHash.getNode st.hashRing kv.1 = sid
    · have heq0 : (ConsistentHash.getNode st.hashRing kv.1, ks0) = (sid, ks) :=
        eq_of_nodupKeys hkeysnd hks0 hsksid (by rw [hts])
      have hkinks : kv.1 ∈ ks := by
        have h2 := congrArg Prod.snd heq0
        simp only at h2
        rw [← h2]
        exact hkin
      have hdsome : (mapFind? kv.1 st.data).isSome = true := by
        rw [mem_mapFind? (sortedKeys_nodup inv.dataSorted)
          (show (kv.1, kv.2) ∈ st.data by simpa using hkv)]
        rfl
      obtain ⟨e', he', h1, h2⟩ := reassign_covers inv2 hne2 ks _ hIA0 kv.1
        hkinks hdsome
      refine ⟨e'.2, ?_, h2⟩
      rw [← h1]
      simpa using he'
    · have hroute2 : ConsistentHash.getNode (st.hashRing.removeNode sid).2 kv.1 =
          ConsistentHash.getNode st.hashRing kv.1 :=
        getNode_removeNode_ne inv.ringInv sid kv.1 hts
      have hentry : (ConsistentHash.getNode st.hashRing kv.1, ks0) ∈
          mapErase sid st.serverKeys := (mem_mapErase _ _ _).mpr ⟨hks0, hts⟩
      obtain ⟨e', he', h1, h2⟩ := reassign_grow ks _ _ kv.1 hentry hkin
      have h1' : e'.1 = ConsistentHash.getNode st.hashRing kv.1 := h1
      refine ⟨e'.2, ?_, h2⟩
      rw [hroute2, ← h1']
      simpa using he'

theorem storeInv_of_reachable {st : KeyValueStore} (h : ReachableKVE st) :
    StoreInv st := by
  induction h with
  | init r hr => exact storeInv_init r hr
  | addServerStep sid _ hn hlen hdata ih => exact storeInv_addServer sid ih hn hlen hdata
  | removeServerStep sid _ ih => exact storeInv_removeServer sid ih
  | setStep key value _ ih => exact storeInv_set key value ih
  | removeStep key _ ih => exact storeInv_remove key ih
  | clearStep _ ih => exact storeInv_clear ih

/-- **C2 (amended).** Store/ring ownership consistency holds for every
sequence of `set`/`remove`/`addServer`/`removeServer` calls in which each
`addServer` happens while the data map is empty: whenever the ring is
non-empty, every key present in `data` is recorded in the key-set of exactly
the server `ring.route(key)`.  (The unrestricted claim is refuted by
`claim_C2_cex`: `addServer` never re-routes existing keys.) -/
theorem claim_C2 (st : KeyValueStore) (h : ReachableKVE st)
    (hne : st.hashRing.ring ≠ []) :
    ∀ kv ∈ st.data,
      (∃ ks, (KeyValueStore.getServerForKey st kv.1, ks) ∈ st.serverKeys ∧
        kv.1 ∈ ks) ∧
      ∀ e ∈ st.serverKeys, kv.1 ∈ e.2 →
        e.1 = KeyValueStore.getServerForKey st kv.1 := by
  have inv := storeInv_of_reachable h
  intro kv hkv
  constructor
  · exact inv.owned hne kv hkv
  · intro e he hk
    exact ((inv.tracked e he).2 kv.1 hk).2.symm

/-- Witness for C2 at a concrete restricted run: one server `"a"`, then
`set "p" "v"`; the stored key `"p"` is tracked exactly under its route. -/
theorem claim_C2_witness :
    (∃ ks, (KeyValueStore.getServerForKey
        (KeyValueStore.set [112] [118]
          (KeyValueStore.addServer [97] (mkKV 1)).2).2 [112], ks) ∈
        (KeyValueStore.set [112] [118]
          (KeyValueStore.addServer [97] (mkKV 1)).2).2.serverKeys ∧
      [112] ∈ ks) ∧
    ∀ e ∈ (KeyValueStore.set [112] [118]
        (KeyValueStore.addServer [97] (mkKV 1)).2).2.serverKeys,
      [112] ∈ e.2 →
      e.1 = KeyValueStore.getServerForKey
        (KeyValueStore.set [112] [118]
          (KeyValueStore.addServer [97] (mkKV 1)).2).2 [112] :=
  claim_C2 _
    (ReachableKVE.setStep [112] [118]
      (ReachableKVE.addServerStep [97] (ReachableKVE.init 1 Nat.one_pos)
        (by decide) (by decide) (by decide)))
    (by decide) ([112], [118]) (by decide)

/-- Counterexample to C2 as stated: after `addServer "a"`, `set "p" "v"`,
`addServer "b"` (one virtual node per server), the key `"p"` is still
recorded under `"a"` but routes to `"b"`. -/
theorem claim_C2_cex :
    exC2.hashRing.ring ≠ [] ∧ ([112], [118]) ∈ exC2.data ∧
      ([97], [[112]]) ∈ exC2.serverKeys ∧ [112] ∈ ([[112]] : List Str) ∧
      KeyValueStore.getServerForKey exC2 [112] = [98] ∧
      ([97] : Str) ≠ [98] := by
  decide

/-- **C3 (amended).** Single-owner bookkeeping holds for every sequence of
operations in which each `addServer` happens while the data map is empty:
no key ever appears in the key-sets of two different servers (each key-set
is also duplicate-free), and whenever the ring is non-empty every key in
`data` has exactly one owner record.  (The unrestricted claim is refuted by
`claim_C3_cex`; the existence half also needs the non-empty-ring guard,
since emptying the ring orphans keys.) -/
theorem claim_C3 (st : KeyValueStore) (h : ReachableKVE st) :
    (st.hashRing.ring ≠ [] → ∀ kv ∈ st.data, ∃ ks,
      (ConsistentHash.getNode st.hashRing kv.1, ks) ∈ st.serverKeys ∧
        kv.1 ∈ ks) ∧
    (∀ e1 ∈ st.serverKeys, ∀ e2 ∈ st.serverKeys, ∀ k : Str,
      k ∈ e1.2 → k ∈ e2.2 → e1 = e2) ∧
    (∀ e ∈ st.serverKeys, e.2.Nodup) := by
  have inv := storeInv_of_reachable h
  refine ⟨fun hne kv hkv => inv.owned hne kv hkv, ?_,
    fun e he => (inv.tracked e he).1⟩
  intro e1 h1 e2 h2 k hk1 hk2
  have r1 := ((inv.tracked e1 h1).2 k hk1).2
  have r2 := ((inv.tracked e2 h2).2 k hk2).2
  exact eq_of_nodupKeys (sortedKeys_nodup inv.skSorted) h1 h2 (r1.symm.trans r2)

/-- Witness for C3 at a concrete restricted run: two servers added while the
store is empty, then one key stored. -/
theorem claim_C3_witness :
    ((KeyValueStore.set [112] [118]
        (KeyValueStore.addServer [98]
          (KeyValueStore.addServer [97] (mkKV 1)).2).2).2.hashRing.ring ≠ [] →
      ∀ kv ∈ (KeyValueStore.set [112] [118]
          (KeyValueStore.addServer [98]
            (KeyValueStore.addServer [97] (mkKV 1)).2).2).2.data, ∃ ks,
        (ConsistentHash.getNode (KeyValueStore.set [112] [118]
            (KeyValueStore.addServer [98]
              (KeyValueStore.addServer [97] (mkKV 1)).2).2).2.hashRing kv.1,
          ks) ∈ (KeyValueStore.set [112] [118]
            (KeyValueStore.addServer [98]
              (KeyValueStore.addServer [97] (mkKV 1)).2).2).2.serverKeys ∧
          kv.1 ∈ ks) ∧
    (∀ e1 ∈ (KeyValueStore.set [112] [118]
        (KeyValueStore.addServer [98]
          (KeyValueStore.addServer [97] (mkKV 1)).2).2).2.serverKeys,
      ∀ e2 ∈ (KeyValueStore.set [112] [118]
          (KeyValueStore.addServer [98]
            (KeyValueStore.addServer [97] (mkKV 1)).2).2).2.serverKeys,
      ∀ k : Str, k ∈ e1.2 → k ∈ e2.2 → e1 = e2) ∧
    (∀ e ∈ (KeyValueStore.set [112] [118]
        (KeyValueStore.addServer [98]
          (KeyValueStore.addServer [97] (mkKV 1)).2).2).2.serverKeys,
      e.2.Nodup) :=
  claim_C3 _
    (ReachableKVE.setStep [112] [118]
      (ReachableKVE.addServerStep [98]
        (ReachableKVE.addServerStep [97] (ReachableKVE.init 1 Nat.one_pos)
          (by decide) (by decide) (by decide))
        (by decide) (by decide) (by decide)))

/-- Counterexample to C3 as stated: continuing `exC2` with `remove "p"`
(which deletes the tracking entry from `"b"`, where the key now routes,
leaving the stale record under `"a"`) and `set "p" "v"` leaves `"p"` in the
key-sets of both `"a"` and `"b"` while present in `data`. -/
theorem claim_C3_cex :
    ([97], [[112]]) ∈ exC3.serverKeys ∧ ([98], [[112]]) ∈ exC3.serverKeys ∧
      [112] ∈ ([[112]] : List Str) ∧ ([97] : Str) ≠ [98] ∧
      (mapFind? [112] exC3.data).isSome = true := by
  decide

end SDI
